import Mathlib

/-!
Verification of the PlecakDB front end (tokenizer.rs and parser.rs): a shallow
embedding of the lexical analyzer and the recursive-descent parser, together
with theorems about the behaviours the specification describes.

The Rust tokenizer walks the input by *byte* positions (`current_position += 1`)
while reading whole characters (`current_char`), so the embedding models a
`&str` as its list of characters equipped with UTF-8 byte arithmetic:
`str::get(pos..)` returns `none` off a character boundary, and the panicking
slice `&input[a..b]` is modelled by an `Option` whose `none` case is surfaced
as a distinguished `panic` outcome.
-/

/-- Total UTF-8 byte length of a character list (the Rust `str::len`). -/
def utf8Len (s : List Char) : Nat :=
  s.foldr (fun c n => c.utf8Size + n) 0

/-- Drop `n` bytes from the front: `some` suffix when `n` lands on a character
boundary at or before the end, `none` otherwise (Rust `str::get(n..)`). -/
def dropBytes (s : List Char) (n : Nat) : Option (List Char) :=
  if n = 0 then some s
  else
    match s with
    | [] => none
    | c :: cs => if c.utf8Size ≤ n then dropBytes cs (n - c.utf8Size) else none

/-- Take `n` bytes from the front: `some` prefix when `n` is a character
boundary at or before the end of the string, `none` otherwise. -/
def takeBytes (s : List Char) (n : Nat) : Option (List Char) :=
  if n = 0 then some []
  else
    match s with
    | [] => none
    | c :: cs =>
      if c.utf8Size ≤ n then (takeBytes cs (n - c.utf8Size)).map (c :: ·) else none

/-- The byte slice `&s[start..stop]`; `none` models the Rust slicing panic
(out of range, unordered bounds, or a bound inside a character). -/
def sliceBytes (s : List Char) (start stop : Nat) : Option (List Char) :=
  if start ≤ stop then (dropBytes s start).bind (fun t => takeBytes t (stop - start))
  else none

/-- The character starting at byte offset `pos`, when `pos` is a boundary
before the end (Rust `self.input.get(self.current_position..)?.chars().next()`). -/
def decodeAt (s : List Char) (pos : Nat) : Option Char :=
  (dropBytes s pos).bind List.head?

theorem utf8Len_cons (c : Char) (s : List Char) :
    utf8Len (c :: s) = c.utf8Size + utf8Len s := rfl

theorem utf8Len_append (s t : List Char) :
    utf8Len (s ++ t) = utf8Len s + utf8Len t := by
  induction s with
  | nil => simp [utf8Len]
  | cons c s ih => simp [utf8Len_cons, ih, Nat.add_assoc]

theorem dropBytes_zero (s : List Char) : dropBytes s 0 = some s := by
  rw [dropBytes.eq_def]; simp

theorem dropBytes_nil_pos {n : Nat} (h : n ≠ 0) : dropBytes [] n = none := by
  rw [dropBytes.eq_def]; simp [h]

theorem dropBytes_cons_big {a : Char} {as : List Char} {n : Nat} (h0 : n ≠ 0)
    (hsz : a.utf8Size ≤ n) : dropBytes (a :: as) n = dropBytes as (n - a.utf8Size) := by
  rw [dropBytes.eq_def]; simp [h0, hsz]

theorem dropBytes_cons_small {a : Char} {as : List Char} {n : Nat} (h0 : n ≠ 0)
    (hsz : ¬a.utf8Size ≤ n) : dropBytes (a :: as) n = none := by
  rw [dropBytes.eq_def]; simp [h0, hsz]

theorem takeBytes_zero (s : List Char) : takeBytes s 0 = some [] := by
  rw [takeBytes.eq_def]; simp

theorem takeBytes_nil_pos {n : Nat} (h : n ≠ 0) : takeBytes [] n = none := by
  rw [takeBytes.eq_def]; simp [h]

theorem takeBytes_cons_big {a : Char} {as : List Char} {n : Nat} (h0 : n ≠ 0)
    (hsz : a.utf8Size ≤ n) :
    takeBytes (a :: as) n = (takeBytes as (n - a.utf8Size)).map (a :: ·) := by
  rw [takeBytes.eq_def]; simp [h0, hsz]

theorem dropBytes_some_len {s t : List Char} {n : Nat}
    (h : dropBytes s n = some t) : n + utf8Len t = utf8Len s := by
  induction s generalizing n with
  | nil =>
    by_cases h0 : n = 0
    · subst h0; rw [dropBytes_zero] at h; simp at h; subst h; simp
    · rw [dropBytes_nil_pos h0] at h; simp at h
  | cons c cs ih =>
    by_cases h0 : n = 0
    · subst h0; rw [dropBytes_zero] at h; simp at h; subst h; simp
    · by_cases hsz : c.utf8Size ≤ n
      · rw [dropBytes_cons_big h0 hsz] at h
        have := ih h
        rw [utf8Len_cons]
        omega
      · rw [dropBytes_cons_small h0 hsz] at h; simp at h

theorem decodeAt_some_lt {s : List Char} {pos : Nat} {c : Char}
    (h : decodeAt s pos = some c) : pos < utf8Len s := by
  rw [decodeAt] at h
  cases hd : dropBytes s pos with
  | none => rw [hd] at h; simp at h
  | some t =>
    rw [hd] at h
    cases t with
    | nil => simp at h
    | cons x xs =>
      have := dropBytes_some_len hd
      rw [utf8Len_cons] at this
      have := Char.utf8Size_pos x
      omega

theorem dropBytes_head {s t : List Char} {c : Char} {pos : Nat}
    (h : dropBytes s pos = some (c :: t)) : decodeAt s pos = some c := by
  rw [decodeAt, h]; rfl

/-- Advancing by exactly the width of the decoded character reaches the next
boundary. -/
theorem dropBytes_step {s t : List Char} {c : Char} {pos : Nat}
    (h : dropBytes s pos = some (c :: t)) :
    dropBytes s (pos + c.utf8Size) = some t := by
  induction s generalizing pos with
  | nil =>
    by_cases h0 : pos = 0
    · subst h0; rw [dropBytes_zero] at h; simp at h
    · rw [dropBytes_nil_pos h0] at h; simp at h
  | cons a as ih =>
    have hc := Char.utf8Size_pos c
    have ha := Char.utf8Size_pos a
    by_cases h0 : pos = 0
    · subst h0
      rw [dropBytes_zero] at h
      simp at h
      obtain ⟨h1, h2⟩ := h
      rw [dropBytes_cons_big (by omega) (by rw [h1]; omega)]
      rw [h1, Nat.zero_add, Nat.sub_self, dropBytes_zero, h2]
    · by_cases hsz : a.utf8Size ≤ pos
      · rw [dropBytes_cons_big h0 hsz] at h
        have := ih h
        rw [dropBytes_cons_big (by omega) (by omega)]
        have harith : pos + c.utf8Size - a.utf8Size = pos - a.utf8Size + c.utf8Size := by
          omega
        rw [harith]
        exact this
      · rw [dropBytes_cons_small h0 hsz] at h; simp at h

/-- A byte offset strictly inside the character at a boundary is not itself a
boundary. -/
theorem dropBytes_mid {s t : List Char} {c : Char} {pos k : Nat}
    (h : dropBytes s pos = some (c :: t)) (hk0 : 0 < k) (hk : k < c.utf8Size) :
    dropBytes s (pos + k) = none := by
  induction s generalizing pos with
  | nil =>
    by_cases h0 : pos = 0
    · subst h0; rw [dropBytes_zero] at h; simp at h
    · rw [dropBytes_nil_pos h0] at h; simp at h
  | cons a as ih =>
    have ha := Char.utf8Size_pos a
    by_cases h0 : pos = 0
    · subst h0
      rw [dropBytes_zero] at h
      simp at h
      obtain ⟨h1, h2⟩ := h
      rw [dropBytes_cons_small (by omega) (by rw [h1]; omega)]
    · by_cases hsz : a.utf8Size ≤ pos
      · rw [dropBytes_cons_big h0 hsz] at h
        have := ih h
        rw [dropBytes_cons_big (by omega) (by omega)]
        have harith : pos + k - a.utf8Size = pos - a.utf8Size + k := by omega
        rw [harith]
        exact this
      · rw [dropBytes_cons_small h0 hsz] at h; simp at h

theorem decodeAt_mid {s t : List Char} {c : Char} {pos k : Nat}
    (h : dropBytes s pos = some (c :: t)) (hk0 : 0 < k) (hk : k < c.utf8Size) :
    decodeAt s (pos + k) = none := by
  rw [decodeAt, dropBytes_mid h hk0 hk]; rfl

theorem decodeAt_end {s : List Char} {pos : Nat}
    (h : dropBytes s pos = some []) : decodeAt s pos = none := by
  rw [decodeAt, h]; rfl

/-- Taking exactly the full byte length succeeds and returns the whole list. -/
theorem takeBytes_full (s : List Char) : takeBytes s (utf8Len s) = some s := by
  induction s with
  | nil => simp [takeBytes, utf8Len]
  | cons c cs ih =>
    have hc := Char.utf8Size_pos c
    rw [utf8Len_cons, takeBytes_cons_big (by omega) (by omega)]
    have : c.utf8Size + utf8Len cs - c.utf8Size = utf8Len cs := by omega
    rw [this, ih]
    rfl

theorem sliceBytes_of_drop {s t w : List Char} {pos n : Nat}
    (hd : dropBytes s pos = some t) (ht : takeBytes t n = some w) :
    sliceBytes s pos (pos + n) = some w := by
  rw [sliceBytes, if_pos (by omega), hd]
  have : pos + n - pos = n := by omega
  simp [this, ht]

/-- Slicing a suffix delimited by boundaries: drop to the start, then the
whole remaining suffix is recovered. -/
theorem sliceBytes_suffix {s t : List Char} {pos : Nat}
    (hd : dropBytes s pos = some t) :
    sliceBytes s pos (pos + utf8Len t) = some t :=
  sliceBytes_of_drop hd (takeBytes_full t)

/-! ## Tokens (tokenizer.rs, `pub enum Token`)

The `Float` case carries the exact decimal rational of the scanned text in
place of the Rust `f64`: the parser never compares, computes with, or
re-renders the field, so the binary rounding step is immaterial to every
theorem below. -/

inductive Token where
  | Keyword (s : String)
  | Identifier (s : String)
  | Float (q : ℚ)
  | Number (n : Int)
  | StringLiteral (s : String)
  | Operator (s : String)
  | Delimiter (c : Char)
deriving DecidableEq

/-- The double-quote character, written by code point to keep quotation
out of character literals. -/
def dquoteChar : Char := Char.ofNat 34

/-- The single-quote character, by code point. -/
def squoteChar : Char := Char.ofNat 39

/-- Rust `char::is_whitespace`: the Unicode White_Space property, tabulated in
full (25 code points). -/
def rustIsWhitespace (c : Char) : Bool :=
  (0x09 ≤ c.toNat && c.toNat ≤ 0x0D) || c.toNat == 0x20 || c.toNat == 0x85 ||
  c.toNat == 0xA0 || c.toNat == 0x1680 ||
  (0x2000 ≤ c.toNat && c.toNat ≤ 0x200A) || c.toNat == 0x2028 ||
  c.toNat == 0x2029 || c.toNat == 0x202F || c.toNat == 0x205F ||
  c.toNat == 0x3000

/-- Rust `char::is_alphabetic` (the Unicode Alphabetic property), tabulated
exactly on the Basic Latin and Latin-1 Supplement blocks (code points below
0x100), which cover every character evaluated in this development; higher
code points are conservatively classified as not alphabetic, so theorems
guarded by this predicate speak about the tabulated range. -/
def rustIsAlphabetic (c : Char) : Bool :=
  (0x41 ≤ c.toNat && c.toNat ≤ 0x5A) || (0x61 ≤ c.toNat && c.toNat ≤ 0x7A) ||
  c.toNat == 0xAA || c.toNat == 0xB5 || c.toNat == 0xBA ||
  (0xC0 ≤ c.toNat && c.toNat ≤ 0xD6) || (0xD8 ≤ c.toNat && c.toNat ≤ 0xF6) ||
  (0xF8 ≤ c.toNat && c.toNat ≤ 0xFF)

/-- Rust `String::to_uppercase`, character map on the ASCII range. Only
single-byte (ASCII) characters can reach the word handler's upper-casing
without the tokenizer panicking first on a char-boundary slice, so the ASCII
mapping is exact wherever it is applied. -/
def rustToUpper (c : Char) : Char :=
  if 0x61 ≤ c.toNat && c.toNat ≤ 0x7A then Char.ofNat (c.toNat - 0x20) else c

/-- Numeric value of a decimal digit string (most significant first). -/
def digitsToNat (w : List Char) : Nat :=
  w.foldl (fun a c => 10 * a + (c.toNat - 0x30)) 0

/-- Rust `str::parse::<i64>` restricted to the sign-free decimal digit strings
the numeric scanner can produce: the value when it fits in `i64`, `none` (the
`Err` case) on overflow or on a malformed string. -/
def parseI64 (w : List Char) : Option Int :=
  if w ≠ [] ∧ ∀ c ∈ w, c.isDigit then
    if digitsToNat w < 2 ^ 63 then some (digitsToNat w : Int) else none
  else none

/-- Exact rational value of a decimal string with an optional single point. -/
def ratOfDecimal (w : List Char) : ℚ :=
  let intPart := w.takeWhile (fun c => c != '.')
  let fracPart := (w.dropWhile (fun c => c != '.')).drop 1
  (digitsToNat (intPart ++ fracPart) : ℚ) / 10 ^ fracPart.length

/-- Rust `str::parse::<f64>` on the digit-and-point shapes the numeric scanner
emits: such a string parses successfully unless it is empty or a bare point.
The exact decimal rational stands in for the rounded binary double (see the
note on `Token.Float`). -/
def parseF64 (w : List Char) : Option ℚ :=
  if w ≠ [] ∧ (∀ c ∈ w, c.isDigit ∨ c = '.') ∧ w.count '.' ≤ 1 ∧ w ≠ ['.'] then
    some (ratOfDecimal w)
  else none

/-- Outcome of a tokenizer routine: `ok` (the Rust `Ok`), `err` (the Rust
`Err(String)`), or `panic` for an abort that never returns a value — an
out-of-range or non-boundary string slice. -/
inductive LexOut (α : Type) where
  | ok (a : α)
  | err (msg : String)
  | panic
deriving DecidableEq

/-- The scan loop of `handle_literals`: starting just past the opening quote,
advance byte-wise until the same quote character recurs, then emit the
characters in between (exclusive); end of input (or a non-boundary position,
where `current_char` is `None`) means the literal never terminated. -/
def literalsLoop (input : List Char) (quoteChar : Char) (start pos : Nat)
    (toks : List Token) : LexOut (List Token × Nat) :=
  match h : decodeAt input pos with
  | some c =>
    if c = quoteChar then
      match sliceBytes input start pos with
      | some w => .ok (toks ++ [.StringLiteral ⟨w⟩], pos + 1)
      | none => .panic
    else literalsLoop input quoteChar start (pos + 1) toks
  | none => .err "Unterminated string literal"
termination_by utf8Len input - pos
decreasing_by
  have := decodeAt_some_lt h
  omega

/-- `handle_literals` (tokenizer.rs:36-54). -/
def handleLiterals (input : List Char) (pos : Nat) (toks : List Token) :
    LexOut (List Token × Nat) :=
  match decodeAt input pos with
  | none => .err "Expected a quote character but found end of input"
  | some quoteChar => literalsLoop input quoteChar (pos + 1) (pos + 1) toks

/-- The scan loop of `handle_alphabetic`: advance byte-wise while the current
character is alphabetic or an underscore; returns the stop position. -/
def scanWord (input : List Char) (pos : Nat) : Nat :=
  match h : decodeAt input pos with
  | some c =>
    if rustIsAlphabetic c || c == '_' then scanWord input (pos + 1) else pos
  | none => pos
termination_by utf8Len input - pos
decreasing_by
  have := decodeAt_some_lt h
  omega

/-- The reserved-word table of `handle_alphabetic` (tokenizer.rs:66). -/
def keywords : List String :=
  ["SELECT", "FROM", "WHERE", "ORDER", "GROUP", "DELETE", "UPDATE", "SET",
   "INSERT", "INTO", "VALUES"]

/-- `handle_alphabetic` (tokenizer.rs:56-75): scan a word, slice it out of the
input (a panic if the scan stopped inside a multi-byte character), upper-case
it, and emit a `Keyword` on a reserved-set hit, an `Identifier` otherwise. -/
def handleAlphabetic (input : List Char) (pos : Nat) (toks : List Token) :
    LexOut (List Token × Nat) :=
  match sliceBytes input pos (scanWord input pos) with
  | some w =>
    if keywords.contains ⟨w.map rustToUpper⟩ then
      .ok (toks ++ [.Keyword ⟨w.map rustToUpper⟩], scanWord input pos)
    else
      .ok (toks ++ [.Identifier ⟨w⟩], scanWord input pos)
  | none => .panic

/-- The scan loop of `handle_numeric`: advance over digits, accepting at most
one decimal point; returns the stop position and whether a point was seen. -/
def scanNumeric (input : List Char) (pos : Nat) (hasDot : Bool) : Nat × Bool :=
  match h : decodeAt input pos with
  | some c =>
    if c.isDigit then scanNumeric input (pos + 1) hasDot
    else if c == '.' && !hasDot then scanNumeric input (pos + 1) true
    else (pos, hasDot)
  | none => (pos, hasDot)
termination_by utf8Len input - pos
decreasing_by
  all_goals have := decodeAt_some_lt h
  all_goals omega

/-- `handle_numeric` (tokenizer.rs:77-105). -/
def handleNumeric (input : List Char) (pos : Nat) (toks : List Token) :
    LexOut (List Token × Nat) :=
  match sliceBytes input pos (scanNumeric input pos false).1 with
  | some w =>
    if (scanNumeric input pos false).2 then
      match parseF64 w with
      | some q => .ok (toks ++ [.Float q], (scanNumeric input pos false).1)
      | none => .err "Failed to parse float"
    else
      match parseI64 w with
      | some n => .ok (toks ++ [.Number n], (scanNumeric input pos false).1)
      | none => .err "Failed to parse integer"
  | none => .panic

/-- `handle_operator` (tokenizer.rs:107-122): a `<`, `>` or `!` grabs a
following `=` into a two-character operator (the second arm repeats the `=`
test for `!` and is unreachable, as in the source); otherwise the single
character is the operator. -/
def handleOperator (input : List Char) (pos : Nat) (toks : List Token)
    (initialChar : Char) : LexOut (List Token × Nat) :=
  match decodeAt input (pos + 1) with
  | some nextChar =>
    if nextChar = '=' then
      .ok (toks ++ [.Operator ⟨[initialChar, nextChar]⟩], pos + 2)
    else if initialChar = '!' ∧ nextChar = '=' then
      .ok (toks ++ [.Operator ⟨[initialChar, nextChar]⟩], pos + 2)
    else .ok (toks ++ [.Operator ⟨[initialChar]⟩], pos + 1)
  | none => .ok (toks ++ [.Operator ⟨[initialChar]⟩], pos + 1)

/-- `handle_logical_operator` (tokenizer.rs:124-136): `&` or `|` doubles when
immediately repeated. -/
def handleLogicalOperator (input : List Char) (pos : Nat) (toks : List Token)
    (initialChar : Char) : LexOut (List Token × Nat) :=
  match decodeAt input (pos + 1) with
  | some nextChar =>
    if nextChar = initialChar then
      .ok (toks ++ [.Operator ⟨[initialChar, nextChar]⟩], pos + 2)
    else .ok (toks ++ [.Operator ⟨[initialChar]⟩], pos + 1)
  | none => .ok (toks ++ [.Operator ⟨[initialChar]⟩], pos + 1)


/-! ### One-step characterizations of the scanning loops -/

theorem scanWord_some {input : List Char} {pos : Nat} {c : Char}
    (h : decodeAt input pos = some c) :
    scanWord input pos =
      if rustIsAlphabetic c || c == '_' then scanWord input (pos + 1) else pos := by
  rw [scanWord.eq_def]
  split
  · rename_i c' heq
    rw [h] at heq
    injection heq with heq
    subst heq
    rfl
  · rename_i heq
    rw [h] at heq
    cases heq

theorem scanWord_none {input : List Char} {pos : Nat}
    (h : decodeAt input pos = none) : scanWord input pos = pos := by
  rw [scanWord.eq_def]
  split
  · rename_i c' heq
    rw [h] at heq
    cases heq
  · rfl

theorem scanNumeric_some {input : List Char} {pos : Nat} {b : Bool} {c : Char}
    (h : decodeAt input pos = some c) :
    scanNumeric input pos b =
      if c.isDigit then scanNumeric input (pos + 1) b
      else if c == '.' && !b then scanNumeric input (pos + 1) true
      else (pos, b) := by
  rw [scanNumeric.eq_def]
  split
  · rename_i c' heq
    rw [h] at heq
    injection heq with heq
    subst heq
    rfl
  · rename_i heq
    rw [h] at heq
    cases heq

theorem scanNumeric_none {input : List Char} {pos : Nat} {b : Bool}
    (h : decodeAt input pos = none) : scanNumeric input pos b = (pos, b) := by
  rw [scanNumeric.eq_def]
  split
  · rename_i c' heq
    rw [h] at heq
    cases heq
  · rfl

theorem literalsLoop_match {input : List Char} {quoteChar : Char}
    {start pos : Nat} {toks : List Token} {w : List Char}
    (h : decodeAt input pos = some quoteChar)
    (hsl : sliceBytes input start pos = some w) :
    literalsLoop input quoteChar start pos toks =
      .ok (toks ++ [.StringLiteral ⟨w⟩], pos + 1) := by
  rw [literalsLoop.eq_def]
  split
  · rename_i c' heq
    rw [h] at heq
    injection heq with heq
    subst heq
    rw [if_pos rfl, hsl]
  · rename_i heq
    rw [h] at heq
    cases heq

theorem literalsLoop_match_panic {input : List Char} {quoteChar : Char}
    {start pos : Nat} {toks : List Token}
    (h : decodeAt input pos = some quoteChar)
    (hsl : sliceBytes input start pos = none) :
    literalsLoop input quoteChar start pos toks = .panic := by
  rw [literalsLoop.eq_def]
  split
  · rename_i c' heq
    rw [h] at heq
    injection heq with heq
    subst heq
    rw [if_pos rfl, hsl]
  · rename_i heq
    rw [h] at heq
    cases heq

theorem literalsLoop_skip {input : List Char} {quoteChar : Char}
    {start pos : Nat} {toks : List Token} {c : Char}
    (h : decodeAt input pos = some c) (hne : c ≠ quoteChar) :
    literalsLoop input quoteChar start pos toks =
      literalsLoop input quoteChar start (pos + 1) toks := by
  rw [literalsLoop.eq_def]
  split
  · rename_i c' heq
    rw [h] at heq
    injection heq with heq
    subst heq
    rw [if_neg hne]
  · rename_i heq
    rw [h] at heq
    cases heq

theorem literalsLoop_end {input : List Char} {quoteChar : Char}
    {start pos : Nat} {toks : List Token}
    (h : decodeAt input pos = none) :
    literalsLoop input quoteChar start pos toks =
      .err "Unterminated string literal" := by
  rw [literalsLoop.eq_def]
  split
  · rename_i c' heq
    rw [h] at heq
    cases heq
  · rfl

/-! ### Characterizations of the non-recursive handlers -/

theorem handleAlphabetic_eq {input : List Char} {pos : Nat} {toks : List Token}
    {w : List Char} (hsl : sliceBytes input pos (scanWord input pos) = some w) :
    handleAlphabetic input pos toks =
      .ok (toks ++
            [if keywords.contains ⟨w.map rustToUpper⟩ then
               Token.Keyword ⟨w.map rustToUpper⟩
             else Token.Identifier ⟨w⟩],
           scanWord input pos) := by
  by_cases hk : keywords.contains ⟨w.map rustToUpper⟩ <;>
    simp only [handleAlphabetic, hsl, hk, if_true, if_false, reduceCtorEq] <;> simp [hk]

theorem handleAlphabetic_panic {input : List Char} {pos : Nat}
    {toks : List Token} (hsl : sliceBytes input pos (scanWord input pos) = none) :
    handleAlphabetic input pos toks = .panic := by
  simp only [handleAlphabetic, hsl]

theorem handleNumeric_eq {input : List Char} {pos : Nat} {toks : List Token}
    {w : List Char}
    (hsl : sliceBytes input pos (scanNumeric input pos false).1 = some w) :
    handleNumeric input pos toks =
      if (scanNumeric input pos false).2 then
        match parseF64 w with
        | some q => .ok (toks ++ [.Float q], (scanNumeric input pos false).1)
        | none => .err "Failed to parse float"
      else
        match parseI64 w with
        | some n => .ok (toks ++ [.Number n], (scanNumeric input pos false).1)
        | none => .err "Failed to parse integer" := by
  simp only [handleNumeric, hsl]

theorem handleNumeric_panic {input : List Char} {pos : Nat} {toks : List Token}
    (hsl : sliceBytes input pos (scanNumeric input pos false).1 = none) :
    handleNumeric input pos toks = .panic := by
  simp only [handleNumeric, hsl]

/-! ### The scans only move forward -/

theorem scanWord_ge (input : List Char) (pos : Nat) : pos ≤ scanWord input pos := by
  induction pos using scanWord.induct input with
  | case1 x c hdec hguard ih =>
    rw [scanWord_some hdec, if_pos hguard]
    omega
  | case2 x c hdec hguard =>
    rw [scanWord_some hdec, if_neg hguard]
  | case3 x hdec =>
    rw [scanWord_none hdec]

theorem scanWord_gt {input : List Char} {pos : Nat} {c : Char}
    (h : decodeAt input pos = some c) (hc : rustIsAlphabetic c || c == '_') :
    pos < scanWord input pos := by
  rw [scanWord_some h, if_pos hc]
  have := scanWord_ge input (pos + 1)
  omega

theorem scanNumeric_ge (input : List Char) (pos : Nat) (b : Bool) :
    pos ≤ (scanNumeric input pos b).1 := by
  induction pos, b using scanNumeric.induct input with
  | case1 pos b c h hguard ih =>
    rw [scanNumeric_some h, if_pos hguard]
    omega
  | case2 pos b c h hg1 hg2 ih =>
    rw [scanNumeric_some h, if_neg hg1, if_pos hg2]
    omega
  | case3 pos b c h hg1 hg2 =>
    rw [scanNumeric_some h, if_neg hg1, if_neg hg2]
  | case4 pos b h =>
    rw [scanNumeric_none h]

theorem scanNumeric_gt {input : List Char} {pos : Nat} {b : Bool} {c : Char}
    (h : decodeAt input pos = some c) (hc : c.isDigit) :
    pos < (scanNumeric input pos b).1 := by
  rw [scanNumeric_some h, if_pos hc]
  have := scanNumeric_ge input (pos + 1) b
  omega

theorem literalsLoop_ok_pos {input : List Char} {quoteChar : Char}
    {start pos : Nat} {toks toks' : List Token} {pos' : Nat}
    (h : literalsLoop input quoteChar start pos toks = .ok (toks', pos')) :
    pos < pos' := by
  induction pos, toks using literalsLoop.induct input quoteChar start with
  | case1 pos toks w hsl hdec =>
    rw [literalsLoop_match hdec hsl] at h
    injection h with h
    have := congrArg Prod.snd h
    simp at this
    omega
  | case2 pos toks hsl hdec =>
    rw [literalsLoop_match_panic hdec hsl] at h
    cases h
  | case3 pos toks c hdec hne ih =>
    rw [literalsLoop_skip hdec hne] at h
    have := ih h
    omega
  | case4 pos toks hdec =>
    rw [literalsLoop_end hdec] at h
    cases h

theorem handleLiterals_ok_pos {input : List Char} {pos : Nat}
    {toks toks' : List Token} {pos' : Nat}
    (h : handleLiterals input pos toks = .ok (toks', pos')) : pos < pos' := by
  rw [handleLiterals] at h
  cases hd : decodeAt input pos with
  | none => rw [hd] at h; cases h
  | some qc =>
    rw [hd] at h
    have := literalsLoop_ok_pos h
    omega

theorem handleAlphabetic_ok_pos {input : List Char} {pos : Nat} {c : Char}
    {toks toks' : List Token} {pos' : Nat}
    (hdec : decodeAt input pos = some c) (hc : rustIsAlphabetic c)
    (h : handleAlphabetic input pos toks = .ok (toks', pos')) : pos < pos' := by
  cases hsl : sliceBytes input pos (scanWord input pos) with
  | none => rw [handleAlphabetic_panic hsl] at h; cases h
  | some w =>
    rw [handleAlphabetic_eq hsl] at h
    injection h with h
    have := congrArg Prod.snd h
    simp at this
    have hgt : pos < scanWord input pos := scanWord_gt hdec (by simp [hc])
    omega

theorem handleNumeric_ok_pos {input : List Char} {pos : Nat} {c : Char}
    {toks toks' : List Token} {pos' : Nat}
    (hdec : decodeAt input pos = some c) (hc : c.isDigit)
    (h : handleNumeric input pos toks = .ok (toks', pos')) : pos < pos' := by
  cases hsl : sliceBytes input pos (scanNumeric input pos false).1 with
  | none => rw [handleNumeric_panic hsl] at h; cases h
  | some w =>
    rw [handleNumeric_eq hsl] at h
    have hgt : pos < (scanNumeric input pos false).1 := scanNumeric_gt hdec hc
    split at h
    · cases hq : parseF64 w <;> rw [hq] at h
      · cases h
      · injection h with h
        have := congrArg Prod.snd h
        simp at this
        omega
    · cases hn : parseI64 w <;> rw [hn] at h
      · cases h
      · injection h with h
        have := congrArg Prod.snd h
        simp at this
        omega

theorem handleOperator_ok_pos {input : List Char} {pos : Nat}
    {initialChar : Char} {toks toks' : List Token} {pos' : Nat}
    (h : handleOperator input pos toks initialChar = .ok (toks', pos')) :
    pos < pos' := by
  rw [handleOperator] at h
  cases hd : decodeAt input (pos + 1) with
  | none =>
    rw [hd] at h
    injection h with h
    have := congrArg Prod.snd h
    simp at this
    omega
  | some nc =>
    rw [hd] at h
    simp only [] at h
    by_cases h1 : nc = '='
    · rw [if_pos h1] at h
      injection h with h
      have := congrArg Prod.snd h
      simp at this
      omega
    · rw [if_neg h1] at h
      by_cases h2 : initialChar = '!' ∧ nc = '='
      · rw [if_pos h2] at h
        injection h with h
        have := congrArg Prod.snd h
        simp at this
        omega
      · rw [if_neg h2] at h
        injection h with h
        have := congrArg Prod.snd h
        simp at this
        omega

theorem handleLogicalOperator_ok_pos {input : List Char} {pos : Nat}
    {initialChar : Char} {toks toks' : List Token} {pos' : Nat}
    (h : handleLogicalOperator input pos toks initialChar = .ok (toks', pos')) :
    pos < pos' := by
  rw [handleLogicalOperator] at h
  cases hd : decodeAt input (pos + 1) with
  | none =>
    rw [hd] at h
    injection h with h
    have := congrArg Prod.snd h
    simp at this
    omega
  | some nc =>
    rw [hd] at h
    simp only [] at h
    by_cases h1 : nc = initialChar
    · rw [if_pos h1] at h
      injection h with h
      have := congrArg Prod.snd h
      simp at this
      omega
    · rw [if_neg h1] at h
      injection h with h
      have := congrArg Prod.snd h
      simp at this
      omega

/-! ## `tokenize` (tokenizer.rs:138-162)

The main loop: while the byte position is below the byte length, dispatch on
the character at the position. The guards appear in source order; a position
inside a multi-byte character makes `current_char` return `None`, which the
source's `None` arm turns into an early successful return. -/

def tokenizeLoop (input : List Char) (pos : Nat) (toks : List Token) :
    LexOut (List Token) :=
  if hlt : pos < utf8Len input then
    match hc : decodeAt input pos with
    | some c =>
      if hws : rustIsWhitespace c then tokenizeLoop input (pos + 1) toks
      else if hq : c = dquoteChar ∨ c = squoteChar then
        match hh : handleLiterals input pos toks with
        | .ok r => tokenizeLoop input r.2 r.1
        | .err m => .err m
        | .panic => .panic
      else if hd : c = ';' ∨ c = ',' ∨ c = '(' ∨ c = ')' then
        tokenizeLoop input (pos + 1) (toks ++ [.Delimiter c])
      else if hop : "+-*/=".data.contains c then
        tokenizeLoop input (pos + 1) (toks ++ [.Operator ⟨[c]⟩])
      else if hcmp : c = '<' ∨ c = '>' ∨ c = '!' then
        match hh : handleOperator input pos toks c with
        | .ok r => tokenizeLoop input r.2 r.1
        | .err m => .err m
        | .panic => .panic
      else if hlog : c = '&' ∨ c = '|' then
        match hh : handleLogicalOperator input pos toks c with
        | .ok r => tokenizeLoop input r.2 r.1
        | .err m => .err m
        | .panic => .panic
      else if hal : rustIsAlphabetic c then
        match hh : handleAlphabetic input pos toks with
        | .ok r => tokenizeLoop input r.2 r.1
        | .err m => .err m
        | .panic => .panic
      else if hdig : c.isDigit then
        match hh : handleNumeric input pos toks with
        | .ok r => tokenizeLoop input r.2 r.1
        | .err m => .err m
        | .panic => .panic
      else .err ("Unrecognized token at position " ++ toString pos)
    | none => .ok toks
  else .ok toks
termination_by utf8Len input - pos
decreasing_by
  · omega
  · have := handleLiterals_ok_pos hh
    omega
  · omega
  · omega
  · have := handleOperator_ok_pos hh
    omega
  · have := handleLogicalOperator_ok_pos hh
    omega
  · have := handleAlphabetic_ok_pos hc hal hh
    omega
  · have := handleNumeric_ok_pos hc hdig hh
    omega

/-- `tokenize`: run the loop from byte position 0 with no tokens collected. -/
def tokenize (input : List Char) : LexOut (List Token) :=
  tokenizeLoop input 0 []

/-! ### Branch lemmas for the main loop -/

theorem tokenizeLoop_done {input : List Char} {pos : Nat} {toks : List Token}
    (hlt : ¬pos < utf8Len input) : tokenizeLoop input pos toks = .ok toks := by
  rw [tokenizeLoop.eq_def, dif_neg hlt]

theorem tokenizeLoop_noChar {input : List Char} {pos : Nat} {toks : List Token}
    (hlt : pos < utf8Len input) (hc : decodeAt input pos = none) :
    tokenizeLoop input pos toks = .ok toks := by
  rw [tokenizeLoop.eq_def, dif_pos hlt]
  split
  · rename_i c' heq
    rw [hc] at heq
    cases heq
  · rfl

theorem tokenizeLoop_ws {input : List Char} {pos : Nat} {toks : List Token}
    {c : Char} (hlt : pos < utf8Len input) (hc : decodeAt input pos = some c)
    (hws : rustIsWhitespace c) :
    tokenizeLoop input pos toks = tokenizeLoop input (pos + 1) toks := by
  rw [tokenizeLoop.eq_def, dif_pos hlt]
  split
  · rename_i c' heq
    rw [hc] at heq
    injection heq with heq
    subst heq
    rw [dif_pos hws]
  · rename_i heq
    rw [hc] at heq
    cases heq

theorem tokenizeLoop_quote {input : List Char} {pos : Nat} {toks : List Token}
    {c : Char} (hlt : pos < utf8Len input) (hc : decodeAt input pos = some c)
    (hws : ¬rustIsWhitespace c) (hq : c = dquoteChar ∨ c = squoteChar) :
    tokenizeLoop input pos toks =
      match handleLiterals input pos toks with
      | .ok r => tokenizeLoop input r.2 r.1
      | .err m => .err m
      | .panic => .panic := by
  rw [tokenizeLoop.eq_def, dif_pos hlt]
  split
  · rename_i c' heq
    rw [hc] at heq
    injection heq with heq
    subst heq
    rw [dif_neg hws, dif_pos hq]
    split <;> rename_i hh <;> rw [hh]
  · rename_i heq
    rw [hc] at heq
    cases heq

theorem tokenizeLoop_delim {input : List Char} {pos : Nat} {toks : List Token}
    {c : Char} (hlt : pos < utf8Len input) (hc : decodeAt input pos = some c)
    (hws : ¬rustIsWhitespace c) (hq : ¬(c = dquoteChar ∨ c = squoteChar))
    (hd : c = ';' ∨ c = ',' ∨ c = '(' ∨ c = ')') :
    tokenizeLoop input pos toks =
      tokenizeLoop input (pos + 1) (toks ++ [.Delimiter c]) := by
  rw [tokenizeLoop.eq_def, dif_pos hlt]
  split
  · rename_i c' heq
    rw [hc] at heq
    injection heq with heq
    subst heq
    rw [dif_neg hws, dif_neg hq, dif_pos hd]
  · rename_i heq
    rw [hc] at heq
    cases heq

theorem tokenizeLoop_opchar {input : List Char} {pos : Nat} {toks : List Token}
    {c : Char} (hlt : pos < utf8Len input) (hc : decodeAt input pos = some c)
    (hws : ¬rustIsWhitespace c) (hq : ¬(c = dquoteChar ∨ c = squoteChar))
    (hd : ¬(c = ';' ∨ c = ',' ∨ c = '(' ∨ c = ')'))
    (hop : "+-*/=".data.contains c) :
    tokenizeLoop input pos toks =
      tokenizeLoop input (pos + 1) (toks ++ [.Operator ⟨[c]⟩]) := by
  rw [tokenizeLoop.eq_def, dif_pos hlt]
  split
  · rename_i c' heq
    rw [hc] at heq
    injection heq with heq
    subst heq
    rw [dif_neg hws, dif_neg hq, dif_neg hd, dif_pos hop]
  · rename_i heq
    rw [hc] at heq
    cases heq

theorem tokenizeLoop_cmp {input : List Char} {pos : Nat} {toks : List Token}
    {c : Char} (hlt : pos < utf8Len input) (hc : decodeAt input pos = some c)
    (hws : ¬rustIsWhitespace c) (hq : ¬(c = dquoteChar ∨ c = squoteChar))
    (hd : ¬(c = ';' ∨ c = ',' ∨ c = '(' ∨ c = ')'))
    (hop : ¬"+-*/=".data.contains c) (hcmp : c = '<' ∨ c = '>' ∨ c = '!') :
    tokenizeLoop input pos toks =
      match handleOperator input pos toks c with
      | .ok r => tokenizeLoop input r.2 r.1
      | .err m => .err m
      | .panic => .panic := by
  rw [tokenizeLoop.eq_def, dif_pos hlt]
  split
  · rename_i c' heq
    rw [hc] at heq
    injection heq with heq
    subst heq
    rw [dif_neg hws, dif_neg hq, dif_neg hd, dif_neg hop, dif_pos hcmp]
    split <;> rename_i hh <;> rw [hh]
  · rename_i heq
    rw [hc] at heq
    cases heq

theorem tokenizeLoop_log {input : List Char} {pos : Nat} {toks : List Token}
    {c : Char} (hlt : pos < utf8Len input) (hc : decodeAt input pos = some c)
    (hws : ¬rustIsWhitespace c) (hq : ¬(c = dquoteChar ∨ c = squoteChar))
    (hd : ¬(c = ';' ∨ c = ',' ∨ c = '(' ∨ c = ')'))
    (hop : ¬"+-*/=".data.contains c) (hcmp : ¬(c = '<' ∨ c = '>' ∨ c = '!'))
    (hlog : c = '&' ∨ c = '|') :
    tokenizeLoop input pos toks =
      match handleLogicalOperator input pos toks c with
      | .ok r => tokenizeLoop input r.2 r.1
      | .err m => .err m
      | .panic => .panic := by
  rw [tokenizeLoop.eq_def, dif_pos hlt]
  split
  · rename_i c' heq
    rw [hc] at heq
    injection heq with heq
    subst heq
    rw [dif_neg hws, dif_neg hq, dif_neg hd, dif_neg hop, dif_neg hcmp,
      dif_pos hlog]
    split <;> rename_i hh <;> rw [hh]
  · rename_i heq
    rw [hc] at heq
    cases heq

theorem tokenizeLoop_alpha {input : List Char} {pos : Nat} {toks : List Token}
    {c : Char} (hlt : pos < utf8Len input) (hc : decodeAt input pos = some c)
    (hws : ¬rustIsWhitespace c) (hq : ¬(c = dquoteChar ∨ c = squoteChar))
    (hd : ¬(c = ';' ∨ c = ',' ∨ c = '(' ∨ c = ')'))
    (hop : ¬"+-*/=".data.contains c) (hcmp : ¬(c = '<' ∨ c = '>' ∨ c = '!'))
    (hlog : ¬(c = '&' ∨ c = '|')) (hal : rustIsAlphabetic c) :
    tokenizeLoop input pos toks =
      match handleAlphabetic input pos toks with
      | .ok r => tokenizeLoop input r.2 r.1
      | .err m => .err m
      | .panic => .panic := by
  rw [tokenizeLoop.eq_def, dif_pos hlt]
  split
  · rename_i c' heq
    rw [hc] at heq
    injection heq with heq
    subst heq
    rw [dif_neg hws, dif_neg hq, dif_neg hd, dif_neg hop, dif_neg hcmp,
      dif_neg hlog, dif_pos hal]
    split <;> rename_i hh <;> rw [hh]
  · rename_i heq
    rw [hc] at heq
    cases heq

theorem tokenizeLoop_dig {input : List Char} {pos : Nat} {toks : List Token}
    {c : Char} (hlt : pos < utf8Len input) (hc : decodeAt input pos = some c)
    (hws : ¬rustIsWhitespace c) (hq : ¬(c = dquoteChar ∨ c = squoteChar))
    (hd : ¬(c = ';' ∨ c = ',' ∨ c = '(' ∨ c = ')'))
    (hop : ¬"+-*/=".data.contains c) (hcmp : ¬(c = '<' ∨ c = '>' ∨ c = '!'))
    (hlog : ¬(c = '&' ∨ c = '|')) (hal : ¬rustIsAlphabetic c)
    (hdig : c.isDigit) :
    tokenizeLoop input pos toks =
      match handleNumeric input pos toks with
      | .ok r => tokenizeLoop input r.2 r.1
      | .err m => .err m
      | .panic => .panic := by
  rw [tokenizeLoop.eq_def, dif_pos hlt]
  split
  · rename_i c' heq
    rw [hc] at heq
    injection heq with heq
    subst heq
    rw [dif_neg hws, dif_neg hq, dif_neg hd, dif_neg hop, dif_neg hcmp,
      dif_neg hlog, dif_neg hal, dif_pos hdig]
    split <;> rename_i hh <;> rw [hh]
  · rename_i heq
    rw [hc] at heq
    cases heq

theorem tokenizeLoop_unrec {input : List Char} {pos : Nat} {toks : List Token}
    {c : Char} (hlt : pos < utf8Len input) (hc : decodeAt input pos = some c)
    (hws : ¬rustIsWhitespace c) (hq : ¬(c = dquoteChar ∨ c = squoteChar))
    (hd : ¬(c = ';' ∨ c = ',' ∨ c = '(' ∨ c = ')'))
    (hop : ¬"+-*/=".data.contains c) (hcmp : ¬(c = '<' ∨ c = '>' ∨ c = '!'))
    (hlog : ¬(c = '&' ∨ c = '|')) (hal : ¬rustIsAlphabetic c)
    (hdig : ¬c.isDigit) :
    tokenizeLoop input pos toks =
      .err ("Unrecognized token at position " ++ toString pos) := by
  rw [tokenizeLoop.eq_def, dif_pos hlt]
  split
  · rename_i c' heq
    rw [hc] at heq
    injection heq with heq
    subst heq
    rw [dif_neg hws, dif_neg hq, dif_neg hd, dif_neg hop, dif_neg hcmp,
      dif_neg hlog, dif_neg hal, dif_neg hdig]
  · rename_i heq
    rw [hc] at heq
    cases heq

/-! ## The query AST (parser.rs:1-99) -/

structure Column where
  name : String
deriving DecidableEq

structure Table where
  name : String
deriving DecidableEq

inductive Value where
  | Integer (n : Int)
  | Float (q : ℚ)
  | Text (s : String)
deriving DecidableEq

inductive Operator where
  | Equal
  | NotEqual
  | LessThan
  | LessOrEqual
  | GreaterThan
  | GreaterOrEqual
deriving DecidableEq

inductive ConditionEnum where
  | Field (c : Column)
  | Value (v : Value)
deriving DecidableEq

structure Condition where
  left : ConditionEnum
  operator : Operator
  right : ConditionEnum
deriving DecidableEq

structure SelectQuery where
  selected_columns : List Column
  table_name : Table
  where_clause : Option Condition
deriving DecidableEq

structure InsertQuery where
  table_name : Table
  columns : List Column
  values : List Value
deriving DecidableEq

structure DeleteQuery where
  table_name : Table
  where_clause : Option Condition
deriving DecidableEq

structure UpdateSet where
  column : Column
  value : Value
deriving DecidableEq

structure UpdateQuery where
  table_name : Table
  changes : List UpdateSet
  where_clause : Option Condition
deriving DecidableEq

inductive Query where
  | Select (q : SelectQuery)
  | Insert (q : InsertQuery)
  | Update (q : UpdateQuery)
  | Delete (q : DeleteQuery)
deriving DecidableEq

/-- Outcome of a parser routine: `ok` carries the produced value and the new
cursor position, `err` the Rust `Err(String)`, and `panic` the out-of-bounds
vector indexing abort inside `advance`/`peek` (`self.tokens[self.position]`),
which is not a return value at all. -/
inductive ParseOut (α : Type) where
  | ok (a : α) (pos : Nat)
  | err (msg : String)
  | panic
deriving DecidableEq

/-- Sequencing that mirrors the Rust `?` operator: an `Err` propagates
unchanged, and a panic unwinds past every caller. -/
def ParseOut.bind {α β : Type} : ParseOut α → (α → Nat → ParseOut β) → ParseOut β
  | .ok a pos, f => f a pos
  | .err m, _ => .err m
  | .panic, _ => .panic

namespace Parser

/-- `advance` (parser.rs:327-331): clone the token at the cursor and move the
cursor forward. Indexing past the end panics. -/
def advance (ts : List Token) (pos : Nat) : ParseOut Token :=
  match ts[pos]? with
  | some t => .ok t (pos + 1)
  | none => .panic

/-- `peek` (parser.rs:333-335): the token at the cursor; `none` models the
out-of-bounds indexing panic. -/
def peek (ts : List Token) (pos : Nat) : Option Token :=
  ts[pos]?

/-- `check_keyword` (parser.rs:337-343): does the cursor hold `Keyword` with
this exact text? Peeking past the end panics (`none`). -/
def check_keyword (ts : List Token) (pos : Nat) (keyword : String) : Option Bool :=
  match peek ts pos with
  | some (Token.Keyword k) => some (k == keyword)
  | some _ => some false
  | none => none

/-- `check` (parser.rs:354-356): value equality of the peeked token. -/
def check (ts : List Token) (pos : Nat) (expected : Token) : Option Bool :=
  (peek ts pos).map (fun t => t == expected)

/-- The Rust `Debug` rendering of a token, used only inside `consume_token`
error strings. String escaping and the `f64` rendering are approximated; no
theorem below inspects these strings. -/
def fmtToken : Token → String
  | .Keyword s => "Keyword(" ++ String.singleton dquoteChar ++ s ++ String.singleton dquoteChar ++ ")"
  | .Identifier s => "Identifier(" ++ String.singleton dquoteChar ++ s ++ String.singleton dquoteChar ++ ")"
  | .Float q => "Float(" ++ toString q ++ ")"
  | .Number n => "Number(" ++ toString n ++ ")"
  | .StringLiteral s => "StringLiteral(" ++ String.singleton dquoteChar ++ s ++ String.singleton dquoteChar ++ ")"
  | .Operator s => "Operator(" ++ String.singleton dquoteChar ++ s ++ String.singleton dquoteChar ++ ")"
  | .Delimiter c => "Delimiter(" ++ String.singleton squoteChar ++ String.singleton c ++ String.singleton squoteChar ++ ")"

/-- `consume_token` (parser.rs:345-352): advance over a token equal to the
expectation, otherwise report it; `check`'s peek panics at end of input. -/
def consume_token (ts : List Token) (pos : Nat) (keyword : Token) : ParseOut Unit :=
  match check ts pos keyword with
  | some true => .ok () (pos + 1)
  | some false =>
    match peek ts pos with
    | some t => .err ("Expected " ++ fmtToken keyword ++ ", found " ++ fmtToken t)
    | none => .panic
  | none => .panic

/-- `parse_column` (parser.rs:273-279). -/
def parse_column (ts : List Token) (pos : Nat) : ParseOut Column :=
  match advance ts pos with
  | .ok (Token.Identifier name) pos1 => .ok ⟨name⟩ pos1
  | .ok _ _ => .err "Expected column name"
  | .err m => .err m
  | .panic => .panic

/-- `parse_table` (parser.rs:281-287). -/
def parse_table (ts : List Token) (pos : Nat) : ParseOut Table :=
  match advance ts pos with
  | .ok (Token.Identifier name) pos1 => .ok ⟨name⟩ pos1
  | .ok _ _ => .err "Expected table name"
  | .err m => .err m
  | .panic => .panic

/-- `parse_value` (parser.rs:248-256). -/
def parse_value (ts : List Token) (pos : Nat) : ParseOut Value :=
  match advance ts pos with
  | .ok (Token.Float v) pos1 => .ok (Value.Float v) pos1
  | .ok (Token.Number v) pos1 => .ok (Value.Integer v) pos1
  | .ok (Token.StringLiteral text) pos1 => .ok (Value.Text text) pos1
  | .ok _ _ => .err "Expected value"
  | .err m => .err m
  | .panic => .panic

/-- `parse_operator` (parser.rs:311-325). -/
def parse_operator (ts : List Token) (pos : Nat) : ParseOut Operator :=
  match advance ts pos with
  | .ok (Token.Operator op) pos1 =>
    if op = "=" then .ok .Equal pos1
    else if op = "!=" then .ok .NotEqual pos1
    else if op = ">" then .ok .GreaterThan pos1
    else if op = "<" then .ok .LessThan pos1
    else if op = ">=" then .ok .GreaterOrEqual pos1
    else if op = "<=" then .ok .LessOrEqual pos1
    else .err ("Unknown operator: " ++ op)
  | .ok _ _ => .err "Expected operator!"
  | .err m => .err m
  | .panic => .panic

/-- `parse_expression` (parser.rs:301-309). -/
def parse_expression (ts : List Token) (pos : Nat) : ParseOut ConditionEnum :=
  match advance ts pos with
  | .ok (Token.Identifier name) pos1 => .ok (.Field ⟨name⟩) pos1
  | .ok (Token.StringLiteral text) pos1 => .ok (.Value (.Text text)) pos1
  | .ok (Token.Float f) pos1 => .ok (.Value (.Float f)) pos1
  | .ok (Token.Number n) pos1 => .ok (.Value (.Integer n)) pos1
  | .ok _ _ => .err "Expected expression"
  | .err m => .err m
  | .panic => .panic

/-- `parse_condition` (parser.rs:289-299). -/
def parse_condition (ts : List Token) (pos : Nat) : ParseOut Condition :=
  (parse_expression ts pos).bind fun left pos1 =>
  (parse_operator ts pos1).bind fun operator pos2 =>
  (parse_expression ts pos2).bind fun right pos3 =>
  .ok ⟨left, operator, right⟩ pos3

/-- `parse_set` (parser.rs:214-231): a column, the literal `=` operator
token, then a value. -/
def parse_set (ts : List Token) (pos : Nat) : ParseOut UpdateSet :=
  (parse_column ts pos).bind fun column pos1 =>
  match advance ts pos1 with
  | .ok (Token.Operator op) pos2 =>
    if op ≠ "=" then .err "Expected '=' in SET clause"
    else
      (parse_value ts pos2).bind fun value pos3 =>
      .ok ⟨column, value⟩ pos3
  | .ok _ _ => .err "Expected '=' operator in SET clause"
  | .err m => .err m
  | .panic => .panic

end Parser

namespace Parser

theorem advance_ok {ts : List Token} {pos : Nat} {t : Token} {pos1 : Nat}
    (h : advance ts pos = .ok t pos1) :
    ts[pos]? = some t ∧ pos1 = pos + 1 ∧ pos < ts.length := by
  unfold advance at h
  cases hm : ts[pos]? with
  | none => rw [hm] at h; cases h
  | some a =>
    rw [hm] at h
    cases h
    refine ⟨rfl, rfl, ?_⟩
    by_contra hge
    rw [List.getElem?_eq_none (by omega)] at hm
    cases hm

theorem peek_some_lt {ts : List Token} {pos : Nat} {t : Token}
    (h : peek ts pos = some t) : pos < ts.length := by
  unfold peek at h
  by_contra hge
  rw [List.getElem?_eq_none (by omega)] at h
  cases h

theorem parse_column_ok {ts : List Token} {pos : Nat} {c : Column} {pos1 : Nat}
    (h : parse_column ts pos = .ok c pos1) : pos1 = pos + 1 ∧ pos < ts.length := by
  unfold parse_column at h
  cases hadv : advance ts pos with
  | err m => rw [hadv] at h; cases h
  | panic => rw [hadv] at h; cases h
  | ok t p1 =>
    obtain ⟨hm, rfl, hlen⟩ := advance_ok hadv
    rw [hadv] at h
    cases t <;> cases h
    exact ⟨rfl, hlen⟩

theorem parse_value_ok {ts : List Token} {pos : Nat} {v : Value} {pos1 : Nat}
    (h : parse_value ts pos = .ok v pos1) : pos1 = pos + 1 ∧ pos < ts.length := by
  unfold parse_value at h
  cases hadv : advance ts pos with
  | err m => rw [hadv] at h; cases h
  | panic => rw [hadv] at h; cases h
  | ok t p1 =>
    obtain ⟨hm, rfl, hlen⟩ := advance_ok hadv
    rw [hadv] at h
    cases t <;> cases h <;> exact ⟨rfl, hlen⟩

theorem parse_set_ok {ts : List Token} {pos : Nat} {u : UpdateSet} {pos3 : Nat}
    (h : parse_set ts pos = .ok u pos3) : pos < pos3 ∧ pos < ts.length := by
  unfold parse_set at h
  cases hc : parse_column ts pos with
  | err m => rw [hc] at h; cases h
  | panic => rw [hc] at h; cases h
  | ok column pos1 =>
    obtain ⟨rfl, hlen⟩ := parse_column_ok hc
    rw [hc] at h
    simp only [ParseOut.bind] at h
    split at h
    · rename_i op pos2 heq
      obtain ⟨hm, rfl, hlen2⟩ := advance_ok heq
      split at h
      · cases h
      · cases hv : parse_value ts (pos + 1 + 1) with
        | err m => rw [hv] at h; simp only [ParseOut.bind] at h; cases h
        | panic => rw [hv] at h; simp only [ParseOut.bind] at h; cases h
        | ok value p3 =>
          obtain ⟨rfl, hlen3⟩ := parse_value_ok hv
          rw [hv] at h
          simp only [ParseOut.bind] at h
          cases h
          omega
    · rename_i heq
      cases h
    · rename_i heq
      cases h
    · rename_i heq
      cases h

/-- `parse_column_list` (parser.rs:258-271): at least one column, then more
after each comma; the comma peek past the end of the tokens panics. -/
def parse_column_list (ts : List Token) (pos : Nat) : ParseOut (List Column) :=
  match hc : parse_column ts pos with
  | .ok column pos1 =>
    match peek ts pos1 with
    | some t =>
      if t = Token.Delimiter ',' then
        match parse_column_list ts (pos1 + 1) with
        | .ok columns pos2 => .ok (column :: columns) pos2
        | .err m => .err m
        | .panic => .panic
      else .ok [column] pos1
    | none => .panic
  | .err m => .err m
  | .panic => .panic
termination_by ts.length - pos
decreasing_by
  have := parse_column_ok hc
  omega

/-- `parse_value_list` (parser.rs:233-246), same loop shape. -/
def parse_value_list (ts : List Token) (pos : Nat) : ParseOut (List Value) :=
  match hv : parse_value ts pos with
  | .ok value pos1 =>
    match peek ts pos1 with
    | some t =>
      if t = Token.Delimiter ',' then
        match parse_value_list ts (pos1 + 1) with
        | .ok values pos2 => .ok (value :: values) pos2
        | .err m => .err m
        | .panic => .panic
      else .ok [value] pos1
    | none => .panic
  | .err m => .err m
  | .panic => .panic
termination_by ts.length - pos
decreasing_by
  have := parse_value_ok hv
  omega

/-- `parse_set_list` (parser.rs:200-212), same loop shape over `SET` pairs. -/
def parse_set_list (ts : List Token) (pos : Nat) : ParseOut (List UpdateSet) :=
  match hs : parse_set ts pos with
  | .ok change pos1 =>
    match peek ts pos1 with
    | some t =>
      if t = Token.Delimiter ',' then
        match parse_set_list ts (pos1 + 1) with
        | .ok changes pos2 => .ok (change :: changes) pos2
        | .err m => .err m
        | .panic => .panic
      else .ok [change] pos1
    | none => .panic
  | .err m => .err m
  | .panic => .panic
termination_by ts.length - pos
decreasing_by
  have := parse_set_ok hs
  omega

/-- `handle_select` (parser.rs:123-141): column list, `FROM`, table, then a
keyword lookahead for the optional `WHERE` — the lookahead peeks at the
position just past the table name and panics when the tokens end there. -/
def handle_select (ts : List Token) (pos : Nat) : ParseOut SelectQuery :=
  (parse_column_list ts pos).bind fun columns pos1 =>
  (consume_token ts pos1 (Token.Keyword "FROM")).bind fun _ pos2 =>
  (parse_table ts pos2).bind fun table pos3 =>
  match check_keyword ts pos3 "WHERE" with
  | some true =>
    (advance ts pos3).bind fun _ pos4 =>
    (parse_condition ts pos4).bind fun cond pos5 =>
    .ok ⟨columns, table, some cond⟩ pos5
  | some false => .ok ⟨columns, table, none⟩ pos3
  | none => .panic

/-- `handle_insert` (parser.rs:143-161). -/
def handle_insert (ts : List Token) (pos : Nat) : ParseOut InsertQuery :=
  (consume_token ts pos (Token.Keyword "INTO")).bind fun _ pos1 =>
  (parse_table ts pos1).bind fun table pos2 =>
  (consume_token ts pos2 (Token.Delimiter '(')).bind fun _ pos3 =>
  (parse_column_list ts pos3).bind fun columns pos4 =>
  (consume_token ts pos4 (Token.Delimiter ')')).bind fun _ pos5 =>
  (consume_token ts pos5 (Token.Keyword "VALUES")).bind fun _ pos6 =>
  (consume_token ts pos6 (Token.Delimiter '(')).bind fun _ pos7 =>
  (parse_value_list ts pos7).bind fun values pos8 =>
  (consume_token ts pos8 (Token.Delimiter ')')).bind fun _ pos9 =>
  .ok ⟨table, columns, values⟩ pos9

/-- `handle_update` (parser.rs:163-181). -/
def handle_update (ts : List Token) (pos : Nat) : ParseOut UpdateQuery :=
  (parse_table ts pos).bind fun table pos1 =>
  (consume_token ts pos1 (Token.Keyword "SET")).bind fun _ pos2 =>
  (parse_set_list ts pos2).bind fun changes pos3 =>
  match check_keyword ts pos3 "WHERE" with
  | some true =>
    (advance ts pos3).bind fun _ pos4 =>
    (parse_condition ts pos4).bind fun cond pos5 =>
    .ok ⟨table, changes, some cond⟩ pos5
  | some false => .ok ⟨table, changes, none⟩ pos3
  | none => .panic

/-- `handle_delete` (parser.rs:183-198). -/
def handle_delete (ts : List Token) (pos : Nat) : ParseOut DeleteQuery :=
  (consume_token ts pos (Token.Keyword "FROM")).bind fun _ pos1 =>
  (parse_table ts pos1).bind fun table pos2 =>
  match check_keyword ts pos2 "WHERE" with
  | some true =>
    (advance ts pos2).bind fun _ pos3 =>
    (parse_condition ts pos3).bind fun cond pos4 =>
    .ok ⟨table, some cond⟩ pos4
  | some false => .ok ⟨table, none⟩ pos2
  | none => .panic

/-- `parse` (parser.rs:109-121): advance over the first token, which must be
a `Keyword` naming the statement form. A `Parser` starts at position 0, so on
an empty token sequence the very first `advance` indexes out of bounds. -/
def parse (ts : List Token) : ParseOut Query :=
  match advance ts 0 with
  | .ok (Token.Keyword keyword) pos1 =>
    if keyword = "SELECT" then
      (handle_select ts pos1).bind fun q p => .ok (Query.Select q) p
    else if keyword = "INSERT" then
      (handle_insert ts pos1).bind fun q p => .ok (Query.Insert q) p
    else if keyword = "UPDATE" then
      (handle_update ts pos1).bind fun q p => .ok (Query.Update q) p
    else if keyword = "DELETE" then
      (handle_delete ts pos1).bind fun q p => .ok (Query.Delete q) p
    else .err "Invalid query type"
  | .ok _ _ => .err "Expected keyword token at the beginning!"
  | .err m => .err m
  | .panic => .panic

theorem parse_column_list_elem_err {ts : List Token} {pos : Nat} {m : String}
    (h : parse_column ts pos = .err m) : parse_column_list ts pos = .err m := by
  rw [parse_column_list.eq_def]
  split
  · rename_i c' pos1' heq
    rw [h] at heq
    cases heq
  · rename_i m' heq
    rw [h] at heq
    cases heq
    rfl
  · rename_i heq
    rw [h] at heq
    cases heq

theorem parse_column_list_elem_panic {ts : List Token} {pos : Nat}
    (h : parse_column ts pos = .panic) : parse_column_list ts pos = .panic := by
  rw [parse_column_list.eq_def]
  split
  · rename_i c' pos1' heq
    rw [h] at heq
    cases heq
  · rename_i m' heq
    rw [h] at heq
    cases heq
  · rfl

theorem parse_column_list_peek_panic {ts : List Token} {pos pos1 : Nat} {c : Column}
    (h : parse_column ts pos = .ok c pos1) (hp : peek ts pos1 = none) :
    parse_column_list ts pos = .panic := by
  rw [parse_column_list.eq_def]
  split
  · rename_i c' pos1' heq
    rw [h] at heq
    injection heq with h1 h2
    subst h1
    subst h2
    simp only [hp]
  · rename_i m' heq
    rw [h] at heq
    cases heq
  · rename_i heq
    rw [h] at heq

theorem parse_column_list_last {ts : List Token} {pos pos1 : Nat} {c : Column} {t : Token}
    (h : parse_column ts pos = .ok c pos1) (hp : peek ts pos1 = some t)
    (hne : ¬t = Token.Delimiter ',') :
    parse_column_list ts pos = .ok [c] pos1 := by
  rw [parse_column_list.eq_def]
  split
  · rename_i c' pos1' heq
    rw [h] at heq
    injection heq with h1 h2
    subst h1
    subst h2
    simp only [hp]
    rw [if_neg hne]
  · rename_i m' heq
    rw [h] at heq
    cases heq
  · rename_i heq
    rw [h] at heq
    cases heq

theorem parse_column_list_comma {ts : List Token} {pos pos1 : Nat} {c : Column}
    (h : parse_column ts pos = .ok c pos1)
    (hp : peek ts pos1 = some (Token.Delimiter ',')) :
    parse_column_list ts pos =
      match parse_column_list ts (pos1 + 1) with
      | .ok cs pos2 => .ok (c :: cs) pos2
      | .err m => .err m
      | .panic => .panic := by
  rw [parse_column_list.eq_def]
  split
  · rename_i c' pos1' heq
    rw [h] at heq
    injection heq with h1 h2
    subst h1
    subst h2
    simp only [hp]
    simp
  · rename_i m' heq
    rw [h] at heq
    cases heq
  · rename_i heq
    rw [h] at heq
    cases heq

theorem parse_value_list_elem_err {ts : List Token} {pos : Nat} {m : String}
    (h : parse_value ts pos = .err m) : parse_value_list ts pos = .err m := by
  rw [parse_value_list.eq_def]
  split
  · rename_i c' pos1' heq
    rw [h] at heq
    cases heq
  · rename_i m' heq
    rw [h] at heq
    cases heq
    rfl
  · rename_i heq
    rw [h] at heq
    cases heq

theorem parse_value_list_elem_panic {ts : List Token} {pos : Nat}
    (h : parse_value ts pos = .panic) : parse_value_list ts pos = .panic := by
  rw [parse_value_list.eq_def]
  split
  · rename_i c' pos1' heq
    rw [h] at heq
    cases heq
  · rename_i m' heq
    rw [h] at heq
    cases heq
  · rfl

theorem parse_value_list_peek_panic {ts : List Token} {pos pos1 : Nat} {c : Value}
    (h : parse_value ts pos = .ok c pos1) (hp : peek ts pos1 = none) :
    parse_value_list ts pos = .panic := by
  rw [parse_value_list.eq_def]
  split
  · rename_i c' pos1' heq
    rw [h] at heq
    injection heq with h1 h2
    subst h1
    subst h2
    simp only [hp]
  · rename_i m' heq
    rw [h] at heq
    cases heq
  · rename_i heq
    rw [h] at heq

theorem parse_value_list_last {ts : List Token} {pos pos1 : Nat} {c : Value} {t : Token}
    (h : parse_value ts pos = .ok c pos1) (hp : peek ts pos1 = some t)
    (hne : ¬t = Token.Delimiter ',') :
    parse_value_list ts pos = .ok [c] pos1 := by
  rw [parse_value_list.eq_def]
  split
  · rename_i c' pos1' heq
    rw [h] at heq
    injection heq with h1 h2
    subst h1
    subst h2
    simp only [hp]
    rw [if_neg hne]
  · rename_i m' heq
    rw [h] at heq
    cases heq
  · rename_i heq
    rw [h] at heq
    cases heq

theorem parse_value_list_comma {ts : List Token} {pos pos1 : Nat} {c : Value}
    (h : parse_value ts pos = .ok c pos1)
    (hp : peek ts pos1 = some (Token.Delimiter ',')) :
    parse_value_list ts pos =
      match parse_value_list ts (pos1 + 1) with
      | .ok cs pos2 => .ok (c :: cs) pos2
      | .err m => .err m
      | .panic => .panic := by
  rw [parse_value_list.eq_def]
  split
  · rename_i c' pos1' heq
    rw [h] at heq
    injection heq with h1 h2
    subst h1
    subst h2
    simp only [hp]
    simp
  · rename_i m' heq
    rw [h] at heq
    cases heq
  · rename_i heq
    rw [h] at heq
    cases heq

theorem parse_set_list_elem_err {ts : List Token} {pos : Nat} {m : String}
    (h : parse_set ts pos = .err m) : parse_set_list ts pos = .err m := by
  rw [parse_set_list.eq_def]
  split
  · rename_i c' pos1' heq
    rw [h] at heq
    cases heq
  · rename_i m' heq
    rw [h] at heq
    cases heq
    rfl
  · rename_i heq
    rw [h] at heq
    cases heq

theorem parse_set_list_elem_panic {ts : List Token} {pos : Nat}
    (h : parse_set ts pos = .panic) : parse_set_list ts pos = .panic := by
  rw [parse_set_list.eq_def]
  split
  · rename_i c' pos1' heq
    rw [h] at heq
    cases heq
  · rename_i m' heq
    rw [h] at heq
    cases heq
  · rfl

theorem parse_set_list_peek_panic {ts : List Token} {pos pos1 : Nat} {c : UpdateSet}
    (h : parse_set ts pos = .ok c pos1) (hp : peek ts pos1 = none) :
    parse_set_list ts pos = .panic := by
  rw [parse_set_list.eq_def]
  split
  · rename_i c' pos1' heq
    rw [h] at heq
    injection heq with h1 h2
    subst h1
    subst h2
    simp only [hp]
  · rename_i m' heq
    rw [h] at heq
    cases heq
  · rename_i heq
    rw [h] at heq

theorem parse_set_list_last {ts : List Token} {pos pos1 : Nat} {c : UpdateSet} {t : Token}
    (h : parse_set ts pos = .ok c pos1) (hp : peek ts pos1 = some t)
    (hne : ¬t = Token.Delimiter ',') :
    parse_set_list ts pos = .ok [c] pos1 := by
  rw [parse_set_list.eq_def]
  split
  · rename_i c' pos1' heq
    rw [h] at heq
    injection heq with h1 h2
    subst h1
    subst h2
    simp only [hp]
    rw [if_neg hne]
  · rename_i m' heq
    rw [h] at heq
    cases heq
  · rename_i heq
    rw [h] at heq
    cases heq

theorem parse_set_list_comma {ts : List Token} {pos pos1 : Nat} {c : UpdateSet}
    (h : parse_set ts pos = .ok c pos1)
    (hp : peek ts pos1 = some (Token.Delimiter ',')) :
    parse_set_list ts pos =
      match parse_set_list ts (pos1 + 1) with
      | .ok cs pos2 => .ok (c :: cs) pos2
      | .err m => .err m
      | .panic => .panic := by
  rw [parse_set_list.eq_def]
  split
  · rename_i c' pos1' heq
    rw [h] at heq
    injection heq with h1 h2
    subst h1
    subst h2
    simp only [hp]
    simp
  · rename_i m' heq
    rw [h] at heq
    cases heq
  · rename_i heq
    rw [h] at heq
    cases heq

end Parser

/-! ## Concrete token sequences used by several claims -/

/-- Tokens of `SELECT a FROM t` (no trailing delimiter). -/
def selTokens : List Token :=
  [.Keyword "SELECT", .Identifier "a", .Keyword "FROM", .Identifier "t"]

/-- Tokens of `SELECT a FROM t;`. -/
def selSemiTokens : List Token := selTokens ++ [.Delimiter ';']

/-- Tokens of `INSERT INTO t (x) VALUES (1)` (no trailing delimiter). -/
def insTokens : List Token :=
  [.Keyword "INSERT", .Keyword "INTO", .Identifier "t", .Delimiter '(',
   .Identifier "x", .Delimiter ')', .Keyword "VALUES", .Delimiter '(',
   .Number 1, .Delimiter ')']

/-- Tokens of `INSERT INTO t (x) VALUES (1);`. -/
def insSemiTokens : List Token := insTokens ++ [.Delimiter ';']

/-- The query `SELECT a FROM t` denotes. -/
def selQuery : Query := .Select ⟨[⟨"a"⟩], ⟨"t"⟩, none⟩

/-- The query `INSERT INTO t (x) VALUES (1)` denotes. -/
def insQuery : Query := .Insert ⟨⟨"t"⟩, [⟨"x"⟩], [.Integer 1]⟩

theorem parse_selSemi_eval : Parser.parse selSemiTokens = .ok selQuery 4 := by
  have h1 : Parser.parse_column_list selSemiTokens 1 = .ok [⟨"a"⟩] 2 :=
    Parser.parse_column_list_last (t := Token.Keyword "FROM") (by decide)
      (by decide) (by decide)
  have hsel : Parser.handle_select selSemiTokens 1 = .ok ⟨[⟨"a"⟩], ⟨"t"⟩, none⟩ 4 := by
    unfold Parser.handle_select
    rw [h1]
    simp only [ParseOut.bind]
    decide
  have ha : Parser.advance selSemiTokens 0 = .ok (Token.Keyword "SELECT") 1 := by
    decide
  unfold Parser.parse
  simp only [ha]
  rw [hsel]
  simp only [ParseOut.bind]
  simp [selQuery]

theorem parse_selNoSemi_eval : Parser.parse selTokens = .panic := by
  have h1 : Parser.parse_column_list selTokens 1 = .ok [⟨"a"⟩] 2 :=
    Parser.parse_column_list_last (t := Token.Keyword "FROM") (by decide)
      (by decide) (by decide)
  have hsel : Parser.handle_select selTokens 1 = .panic := by
    unfold Parser.handle_select
    rw [h1]
    simp only [ParseOut.bind]
    decide
  have ha : Parser.advance selTokens 0 = .ok (Token.Keyword "SELECT") 1 := by
    decide
  unfold Parser.parse
  simp only [ha]
  rw [hsel]
  simp only [ParseOut.bind]
  simp

theorem parse_ins_eval : Parser.parse insTokens = .ok insQuery 10 := by
  have hl1 : Parser.parse_column_list insTokens 4 = .ok [⟨"x"⟩] 5 :=
    Parser.parse_column_list_last (t := Token.Delimiter ')') (by decide)
      (by decide) (by decide)
  have hl2 : Parser.parse_value_list insTokens 8 = .ok [.Integer 1] 9 :=
    Parser.parse_value_list_last (t := Token.Delimiter ')') (by decide)
      (by decide) (by decide)
  have hc1 : Parser.consume_token insTokens 1 (Token.Keyword "INTO") = .ok () 2 := by
    decide
  have ht : Parser.parse_table insTokens 2 = .ok ⟨"t"⟩ 3 := by decide
  have hc2 : Parser.consume_token insTokens 3 (Token.Delimiter '(') = .ok () 4 := by
    decide
  have hc3 : Parser.consume_token insTokens 5 (Token.Delimiter ')') = .ok () 6 := by
    decide
  have hc4 : Parser.consume_token insTokens 6 (Token.Keyword "VALUES") = .ok () 7 := by
    decide
  have hc5 : Parser.consume_token insTokens 7 (Token.Delimiter '(') = .ok () 8 := by
    decide
  have hc6 : Parser.consume_token insTokens 9 (Token.Delimiter ')') = .ok () 10 := by
    decide
  have hins : Parser.handle_insert insTokens 1 = .ok ⟨⟨"t"⟩, [⟨"x"⟩], [.Integer 1]⟩ 10 := by
    unfold Parser.handle_insert
    simp only [hc1, ht, hc2, hl1, hc3, hc4, hc5, hl2, hc6, ParseOut.bind]
  have ha : Parser.advance insTokens 0 = .ok (Token.Keyword "INSERT") 1 := by
    decide
  unfold Parser.parse
  simp only [ha]
  rw [hins]
  simp only [ParseOut.bind]
  simp [insQuery]

theorem parse_insSemi_eval : Parser.parse insSemiTokens = .ok insQuery 10 := by
  have hl1 : Parser.parse_column_list insSemiTokens 4 = .ok [⟨"x"⟩] 5 :=
    Parser.parse_column_list_last (t := Token.Delimiter ')') (by decide)
      (by decide) (by decide)
  have hl2 : Parser.parse_value_list insSemiTokens 8 = .ok [.Integer 1] 9 :=
    Parser.parse_value_list_last (t := Token.Delimiter ')') (by decide)
      (by decide) (by decide)
  have hc1 : Parser.consume_token insSemiTokens 1 (Token.Keyword "INTO") = .ok () 2 := by
    decide
  have ht : Parser.parse_table insSemiTokens 2 = .ok ⟨"t"⟩ 3 := by decide
  have hc2 : Parser.consume_token insSemiTokens 3 (Token.Delimiter '(') = .ok () 4 := by
    decide
  have hc3 : Parser.consume_token insSemiTokens 5 (Token.Delimiter ')') = .ok () 6 := by
    decide
  have hc4 : Parser.consume_token insSemiTokens 6 (Token.Keyword "VALUES") = .ok () 7 := by
    decide
  have hc5 : Parser.consume_token insSemiTokens 7 (Token.Delimiter '(') = .ok () 8 := by
    decide
  have hc6 : Parser.consume_token insSemiTokens 9 (Token.Delimiter ')') = .ok () 10 := by
    decide
  have hins : Parser.handle_insert insSemiTokens 1 =
      .ok ⟨⟨"t"⟩, [⟨"x"⟩], [.Integer 1]⟩ 10 := by
    unfold Parser.handle_insert
    simp only [hc1, ht, hc2, hl1, hc3, hc4, hc5, hl2, hc6, ParseOut.bind]
  have ha : Parser.advance insSemiTokens 0 = .ok (Token.Keyword "INSERT") 1 := by
    decide
  unfold Parser.parse
  simp only [ha]
  rw [hins]
  simp only [ParseOut.bind]
  simp [insQuery]

/-! ## Claims -/

/-- C1, counterexample. The claim says both `SELECT a FROM t` and
`SELECT a FROM t;` parse, returning identical `Query` values, with the parser
never aborting. In fact only the `;`-terminated sequence parses; without the
trailing token the `WHERE` lookahead (`check_keyword` → `peek` →
`self.tokens[4]`) indexes out of bounds and the program panics. -/
theorem C1_cex :
    Parser.parse selSemiTokens = .ok selQuery 4 ∧ Parser.parse selTokens = .panic :=
  ⟨parse_selSemi_eval, parse_selNoSemi_eval⟩

/-- C1, amended. The trailing `;` is tolerated trailing input, not optional:
`SELECT a FROM t;` parses while `SELECT a FROM t` panics on the out-of-bounds
`WHERE` lookahead; the `;` is genuinely optional only for a statement form
that ends by consuming a token (INSERT), where the parse result is identical
with and without it. -/
theorem C1_thm :
    Parser.parse selSemiTokens = .ok selQuery 4 ∧
    Parser.parse selTokens = .panic ∧
    Parser.parse insTokens = .ok insQuery 10 ∧
    Parser.parse insSemiTokens = .ok insQuery 10 :=
  ⟨parse_selSemi_eval, parse_selNoSemi_eval, parse_ins_eval, parse_insSemi_eval⟩

/-- C2, counterexample. The claim says `parse` on an empty token sequence
returns an *UnexpectedEndOfInput* diagnostic; in fact the first `advance`
indexes `self.tokens[0]` out of bounds and the program panics — no error
value is ever produced. -/
theorem C2_cex : Parser.parse ([] : List Token) = ParseOut.panic := by
  decide

/-- C2, amended. At or past the end of the token sequence, `advance` and
`peek` do not produce any diagnostic: they abort with the vector's
out-of-bounds indexing panic, and consequently `parse` of an empty token
sequence panics rather than returning an error. -/
theorem C2_thm (ts : List Token) (pos : Nat) (h : ts.length ≤ pos) :
    Parser.advance ts pos = .panic ∧ Parser.peek ts pos = none ∧
    Parser.parse ([] : List Token) = .panic := by
  refine ⟨?_, ?_, by decide⟩
  · unfold Parser.advance
    rw [List.getElem?_eq_none h]
  · unfold Parser.peek
    rw [List.getElem?_eq_none h]

/-- C2, witness for the amended theorem at the empty sequence and cursor 0. -/
theorem C2_witness :
    ([] : List Token).length ≤ 0 ∧
      (Parser.advance ([] : List Token) 0 = .panic ∧
       Parser.peek ([] : List Token) 0 = none ∧
       Parser.parse ([] : List Token) = .panic) :=
  ⟨by decide, C2_thm [] 0 (by decide)⟩

/-- C8. A list production consumes at least one element: `parse_column_list`
begins with `parse_column` and surfaces its error unchanged, so the empty
column list of `SELECT FROM t;` yields the element rule's diagnostic
("Expected column name", the *ExpectedIdentifier* kind). -/
theorem C8_thm (ts : List Token) (pos : Nat) (m : String)
    (h : Parser.parse_column ts pos = .err m) :
    Parser.parse_column_list ts pos = .err m ∧
    Parser.parse [Token.Keyword "SELECT", Token.Keyword "FROM",
      Token.Identifier "t", Token.Delimiter ';'] = .err "Expected column name" := by
  refine ⟨Parser.parse_column_list_elem_err h, ?_⟩
  have h1 : Parser.parse_column [Token.Keyword "SELECT", Token.Keyword "FROM",
      Token.Identifier "t", Token.Delimiter ';'] 1 = .err "Expected column name" := by
    decide
  have hl := Parser.parse_column_list_elem_err h1
  have hsel : Parser.handle_select [Token.Keyword "SELECT", Token.Keyword "FROM",
      Token.Identifier "t", Token.Delimiter ';'] 1 = .err "Expected column name" := by
    unfold Parser.handle_select
    rw [hl]
    simp only [ParseOut.bind]
  have ha : Parser.advance [Token.Keyword "SELECT", Token.Keyword "FROM",
      Token.Identifier "t", Token.Delimiter ';'] 0 =
      .ok (Token.Keyword "SELECT") 1 := by decide
  unfold Parser.parse
  simp only [ha]
  rw [hsel]
  simp only [ParseOut.bind]
  simp

/-- C8, witness: the element rule fails at a `FROM` keyword in column
position, and the list production surfaces exactly that error. -/
theorem C8_witness :
    Parser.parse_column [Token.Keyword "FROM"] 0 = .err "Expected column name" ∧
    Parser.parse_column_list [Token.Keyword "FROM"] 0 = .err "Expected column name" :=
  ⟨by decide,
   (C8_thm [Token.Keyword "FROM"] 0 "Expected column name" (by decide)).1⟩

/-- C3. The lexer is total only over ASCII-compatible input. `advance` moves
the byte position by 1 while characters may be wider: on "é" (two bytes) the
word scan stops inside the character and the slice
`input[start..current_position]` panics on a non-boundary index; on an input
beginning with a multi-byte whitespace character (U+00A0) the position lands
inside the character, `current_char` returns `None`, and the `None` arm
returns `Ok` — silently dropping everything after that character. -/
theorem C3_thm :
    tokenize "é".data = .panic ∧
    tokenize (Char.ofNat 0xA0 :: "x;".data) = .ok [] := by
  constructor
  · have e0 : decodeAt "é".data 0 = some 'é' := by decide
    have hw : scanWord "é".data 0 = 1 := by
      rw [scanWord_some e0, if_pos (by decide)]
      exact scanWord_none (by decide)
    have hsl : sliceBytes "é".data 0 (scanWord "é".data 0) = none := by
      rw [hw]; decide
    have hp := @handleAlphabetic_panic "é".data 0 [] hsl
    rw [tokenize, tokenizeLoop_alpha (by decide) e0 (by decide) (by decide)
      (by decide) (by decide) (by decide) (by decide) (by decide), hp]
  · have e0 : decodeAt (Char.ofNat 0xA0 :: "x;".data) 0 = some (Char.ofNat 0xA0) := by
      decide
    rw [tokenize, tokenizeLoop_ws (by decide) e0 (by decide)]
    exact tokenizeLoop_noChar (by decide) (by decide)

/-- C4, counterexample. The claim says an input whose first non-whitespace
character is `_` (e.g. `_foo`) lexes that word as an `Identifier`. In fact
the dispatch in `tokenize` has no `_` arm — only `c.is_alphabetic()` starts a
word, and `'_'` is not alphabetic — so `_foo` falls through to the
catch-all *UnrecognizedCharacter* error. -/
theorem C4_cex :
    tokenize "_foo".data = .err "Unrecognized token at position 0" := by
  have e0 : decodeAt "_foo".data 0 = some '_' := by decide
  rw [tokenize, tokenizeLoop_unrec (by decide) e0 (by decide) (by decide)
    (by decide) (by decide) (by decide) (by decide) (by decide) (by decide)]
  decide

/-- C4, amended. A word begins only at an alphabetic character: wherever the
main loop meets `_`, it reports *UnrecognizedCharacter* at that byte
position. `_` does continue a word already begun (`a_b` is one `Identifier`),
but `_foo` fails rather than lexing a word. -/
theorem C4_thm (input : List Char) (pos : Nat) (toks : List Token)
    (hlt : pos < utf8Len input) (hc : decodeAt input pos = some '_') :
    tokenizeLoop input pos toks =
      .err ("Unrecognized token at position " ++ toString pos) ∧
    tokenize "a_b".data = .ok [.Identifier "a_b"] ∧
    tokenize "_foo".data = .err "Unrecognized token at position 0" := by
  refine ⟨?_, ?_, C4_cex⟩
  · exact tokenizeLoop_unrec hlt hc (by decide) (by decide) (by decide)
      (by decide) (by decide) (by decide) (by decide) (by decide)
  · have e0 : decodeAt "a_b".data 0 = some 'a' := by decide
    have hw : scanWord "a_b".data 0 = 3 := by
      rw [scanWord_some e0, if_pos (by decide)]
      rw [scanWord_some (c := '_') (by decide), if_pos (by decide)]
      rw [scanWord_some (c := 'b') (by decide), if_pos (by decide)]
      exact scanWord_none (by decide)
    have hsl : sliceBytes "a_b".data 0 (scanWord "a_b".data 0) = some "a_b".data := by
      rw [hw]; decide
    have hA : handleAlphabetic "a_b".data 0 [] = .ok ([.Identifier "a_b"], 3) := by
      rw [handleAlphabetic_eq hsl, hw]
      decide
    rw [tokenize, tokenizeLoop_alpha (by decide) e0 (by decide) (by decide)
      (by decide) (by decide) (by decide) (by decide) (by decide), hA]
    exact tokenizeLoop_done (by decide)

/-- C4, witness for the amended theorem: the `_` of `_foo` sits at byte 0 and
the loop reports it. -/
theorem C4_witness :
    0 < utf8Len "_foo".data ∧ decodeAt "_foo".data 0 = some '_' ∧
    tokenizeLoop "_foo".data 0 [] = .err "Unrecognized token at position 0" :=
  ⟨by decide, by decide,
   by simpa using (C4_thm "_foo".data 0 [] (by decide) (by decide)).1⟩

/-- Loop invariant for whitespace-then-`;` inputs: from any boundary whose
suffix is whitespace characters followed by one `;`, the loop ends in `Ok`
with either no token (a multi-byte whitespace truncated the scan) or exactly
the one delimiter. -/
theorem tokenizeWsAux (ws : List Char) (h : ∀ c ∈ ws, rustIsWhitespace c)
    (input : List Char) (pos : Nat)
    (hd : dropBytes input pos = some (ws ++ [';'])) :
    tokenizeLoop input pos [] = .ok [] ∨
    tokenizeLoop input pos [] = .ok [.Delimiter ';'] := by
  induction ws generalizing pos with
  | nil =>
    have hc : decodeAt input pos = some ';' := dropBytes_head hd
    have hlen := dropBytes_some_len hd
    have hone : utf8Len ([';'] : List Char) = 1 := by decide
    have hlt : pos < utf8Len input := decodeAt_some_lt hc
    rw [tokenizeLoop_delim hlt hc (by decide) (by decide) (by decide)]
    right
    have : ¬pos + 1 < utf8Len input := by
      simp only [List.nil_append] at hlen
      omega
    simpa using tokenizeLoop_done this
  | cons c ws ih =>
    have hdh : dropBytes input pos = some (c :: (ws ++ [';'])) := by simpa using hd
    have hc : decodeAt input pos = some c := dropBytes_head hdh
    have hw : rustIsWhitespace c := h c (by simp)
    have hlt : pos < utf8Len input := decodeAt_some_lt hc
    rw [tokenizeLoop_ws hlt hc hw]
    have hpos := Char.utf8Size_pos c
    by_cases hsz : c.utf8Size = 1
    · have hstep := dropBytes_step hdh
      rw [hsz] at hstep
      exact ih (fun x hx => h x (by simp [hx])) (pos + 1) hstep
    · have hnone : decodeAt input (pos + 1) = none :=
        decodeAt_mid hdh (by omega) (by omega)
      have hlen := dropBytes_some_len hdh
      have htail : 1 ≤ utf8Len (ws ++ [';']) := by
        rw [utf8Len_append]
        have : utf8Len ([';'] : List Char) = 1 := by decide
        omega
      rw [utf8Len_cons] at hlen
      have hlt2 : pos + 1 < utf8Len input := by omega
      rw [tokenizeLoop_noChar hlt2 hnone]
      left
      rfl

/-- C7. For a source of whitespace characters followed by a trailing `;`,
lexing always succeeds: it yields the empty token sequence (when a multi-byte
whitespace character silently truncates the scan) or the single
`Delimiter(';')` — never a diagnostic. -/
theorem C7_thm (ws : List Char) (h : ∀ c ∈ ws, rustIsWhitespace c) :
    tokenize (ws ++ [';']) = .ok [] ∨
    tokenize (ws ++ [';']) = .ok [.Delimiter ';'] := by
  have := tokenizeWsAux ws h (ws ++ [';']) 0 (dropBytes_zero _)
  simpa [tokenize] using this

/-- C7, witness at a space and a tab before the delimiter. -/
theorem C7_witness :
    (∀ c ∈ [' ', Char.ofNat 0x09], rustIsWhitespace c) ∧
    (tokenize ([' ', Char.ofNat 0x09] ++ [';']) = .ok [] ∨
     tokenize ([' ', Char.ofNat 0x09] ++ [';']) = .ok [.Delimiter ';']) :=
  ⟨by decide, C7_thm [' ', Char.ofNat 0x09] (by decide)⟩

/-! ### Character-class facts used by the word and number claims -/

theorem utf8Size_one {c : Char} (h : c.toNat < 0x80) : c.utf8Size = 1 := by
  unfold Char.utf8Size
  rw [if_pos]
  show c.val.toBitVec.toNat ≤ 127
  exact Nat.le_of_lt_succ h

theorem isDigit_toNat {c : Char} (h : c.isDigit) :
    0x30 ≤ c.toNat ∧ c.toNat ≤ 0x39 := by
  simp only [Char.isDigit, Bool.and_eq_true, decide_eq_true_eq] at h
  exact h

theorem utf8Len_ascii {xs : List Char} (h : ∀ x ∈ xs, x.utf8Size = 1) :
    utf8Len xs = xs.length := by
  induction xs with
  | nil => rfl
  | cons x xs ih =>
    rw [utf8Len_cons, h x (by simp), ih (fun y hy => h y (by simp [hy]))]
    simp [Nat.add_comm]

/-- A character that can begin a word or a number token is claimed by no
earlier arm of the `tokenize` dispatch. -/
theorem word_dispatch {c : Char} (h : rustIsAlphabetic c ∨ c.isDigit) :
    ¬rustIsWhitespace c ∧ ¬(c = dquoteChar ∨ c = squoteChar) ∧
    ¬(c = ';' ∨ c = ',' ∨ c = '(' ∨ c = ')') ∧ ¬"+-*/=".data.contains c ∧
    ¬(c = '<' ∨ c = '>' ∨ c = '!') ∧ ¬(c = '&' ∨ c = '|') := by
  have hn : (0x41 ≤ c.toNat ∧ c.toNat ≤ 0x5A) ∨ (0x61 ≤ c.toNat ∧ c.toNat ≤ 0x7A) ∨
      c.toNat = 0xAA ∨ c.toNat = 0xB5 ∨ c.toNat = 0xBA ∨
      (0xC0 ≤ c.toNat ∧ c.toNat ≤ 0xD6) ∨ (0xD8 ≤ c.toNat ∧ c.toNat ≤ 0xF6) ∨
      (0xF8 ≤ c.toNat ∧ c.toNat ≤ 0xFF) ∨ (0x30 ≤ c.toNat ∧ c.toNat ≤ 0x39) := by
    rcases h with h | h
    · simp only [rustIsAlphabetic, Bool.or_eq_true, Bool.and_eq_true,
        decide_eq_true_eq, beq_iff_eq] at h
      omega
    · have := isDigit_toNat h
      omega
  refine ⟨?_, ?_, ?_, ?_, ?_, ?_⟩
  · intro hws
    simp only [rustIsWhitespace, Bool.or_eq_true, Bool.and_eq_true,
      decide_eq_true_eq, beq_iff_eq] at hws
    omega
  · rintro (rfl | rfl) <;> exact absurd hn (by decide)
  · rintro (rfl | rfl | rfl | rfl) <;> exact absurd hn (by decide)
  · intro hcon
    have hmem : c ∈ "+-*/=".data := by simpa using hcon
    have : c = '+' ∨ c = '-' ∨ c = '*' ∨ c = '/' ∨ c = '=' := by simpa using hmem
    rcases this with rfl | rfl | rfl | rfl | rfl <;> exact absurd hn (by decide)
  · rintro (rfl | rfl | rfl) <;> exact absurd hn (by decide)
  · rintro (rfl | rfl) <;> exact absurd hn (by decide)

theorem digit_not_alpha {c : Char} (h : c.isDigit) : ¬rustIsAlphabetic c := by
  intro ha
  have hd := isDigit_toNat h
  simp only [rustIsAlphabetic, Bool.or_eq_true, Bool.and_eq_true,
    decide_eq_true_eq, beq_iff_eq] at ha
  omega

/-- The word scan consumes every character of a suffix made of single-byte
word characters, stopping at the end of the input. -/
theorem scanWord_all (xs : List Char)
    (hx : ∀ x ∈ xs, (rustIsAlphabetic x ∨ x = '_') ∧ x.utf8Size = 1)
    (input : List Char) (pos : Nat) (hd : dropBytes input pos = some xs) :
    scanWord input pos = pos + xs.length := by
  induction xs generalizing pos with
  | nil =>
    rw [scanWord_none (decodeAt_end hd)]
    simp
  | cons x xs ih =>
    have hc := dropBytes_head hd
    obtain ⟨hx1, hsz⟩ := hx x (by simp)
    have hguard : (rustIsAlphabetic x || x == '_') = true := by
      rcases hx1 with h | h
      · simp [h]
      · simp [h]
    rw [scanWord_some hc, if_pos hguard]
    have hstep := dropBytes_step hd
    rw [hsz] at hstep
    rw [ih (fun y hy => hx y (by simp [hy])) (pos + 1) hstep]
    simp [Nat.add_comm, Nat.add_assoc, Nat.add_left_comm]

/-- C6. Lexing a whole word (ASCII alphabetic first character, then
alphabetic-or-underscore characters) emits exactly one token: `Keyword` of
the upper-cased spelling iff that upper-cased form is in the reserved set —
so matching is insensitive to the input's case — and otherwise `Identifier`
carrying the word exactly as written. -/
theorem C6_thm (c : Char) (rest : List Char) (hal : rustIsAlphabetic c)
    (hascii : ∀ x ∈ c :: rest, x.toNat < 0x80)
    (hword : ∀ x ∈ c :: rest, rustIsAlphabetic x ∨ x = '_') :
    tokenize (c :: rest) =
      .ok [if keywords.contains ⟨(c :: rest).map rustToUpper⟩ then
             Token.Keyword ⟨(c :: rest).map rustToUpper⟩
           else Token.Identifier ⟨c :: rest⟩] := by
  have hsz : ∀ x ∈ c :: rest, x.utf8Size = 1 := fun x hx =>
    utf8Size_one (hascii x hx)
  have hlen : utf8Len (c :: rest) = (c :: rest).length := utf8Len_ascii hsz
  have hw : scanWord (c :: rest) 0 = (c :: rest).length := by
    have := scanWord_all (c :: rest) (fun x hx => ⟨hword x hx, hsz x hx⟩)
      (c :: rest) 0 (dropBytes_zero _)
    simpa using this
  have hsl : sliceBytes (c :: rest) 0 (scanWord (c :: rest) 0) = some (c :: rest) := by
    have hx := sliceBytes_suffix (dropBytes_zero (c :: rest))
    rw [hw, ← hlen]
    simpa using hx
  have hA := @handleAlphabetic_eq (c :: rest) 0 [] (c :: rest) hsl
  have hc0 : decodeAt (c :: rest) 0 = some c := by
    rw [decodeAt, dropBytes_zero]
    rfl
  have hlt : 0 < utf8Len (c :: rest) := by
    rw [utf8Len_cons]
    have := Char.utf8Size_pos c
    omega
  obtain ⟨d1, d2, d3, d4, d5, d6⟩ := word_dispatch (Or.inl hal)
  rw [tokenize, tokenizeLoop_alpha hlt hc0 d1 d2 d3 d4 d5 d6 hal, hA]
  have hdone : ¬(c :: rest).length < utf8Len (c :: rest) := by omega
  rw [hw]
  simpa using @tokenizeLoop_done (c :: rest) (c :: rest).length
    ([] ++ [if keywords.contains ⟨(c :: rest).map rustToUpper⟩ then
      Token.Keyword ⟨(c :: rest).map rustToUpper⟩
    else Token.Identifier ⟨c :: rest⟩]) hdone

/-- C6, witness: `select` (lower case) becomes `Keyword "SELECT"`, `Name`
stays an `Identifier` with case preserved. -/
theorem C6_witness :
    tokenize ('s' :: "elect".data) = .ok [Token.Keyword "SELECT"] ∧
    tokenize ('N' :: "ame".data) = .ok [Token.Identifier "Name"] := by
  constructor
  · rw [C6_thm 's' "elect".data (by decide) (by decide) (by decide)]
    decide
  · rw [C6_thm 'N' "ame".data (by decide) (by decide) (by decide)]
    decide

theorem digit_ne_dot {c : Char} (h : c.isDigit) : c ≠ '.' := by
  intro he
  subst he
  simp at h

/-- The numeric scan consumes a whole suffix of digits and at most one
point, reporting whether a point occurred. -/
theorem scanNumeric_all (xs : List Char) (hx : ∀ x ∈ xs, x.isDigit ∨ x = '.')
    (input : List Char) (pos : Nat) (b : Bool)
    (hd : dropBytes input pos = some xs)
    (hcount : xs.count '.' + (if b then 1 else 0) ≤ 1) :
    scanNumeric input pos b = (pos + xs.length, b || decide ('.' ∈ xs)) := by
  induction xs generalizing pos b with
  | nil =>
    rw [scanNumeric_none (decodeAt_end hd)]
    simp
  | cons x xs ih =>
    have hc := dropBytes_head hd
    rcases hx x (by simp) with hdig | hdot
    · have hne := digit_ne_dot hdig
      have hsz : x.utf8Size = 1 := by
        have := isDigit_toNat hdig
        exact utf8Size_one (by omega)
      rw [scanNumeric_some hc, if_pos hdig]
      have hstep := dropBytes_step hd
      rw [hsz] at hstep
      have hcnt : (x :: xs).count '.' = xs.count '.' := by
        rw [List.count_cons]
        simp [hne]
      rw [ih (fun y hy => hx y (by simp [hy])) (pos + 1) b hstep (by omega)]
      have hmem : decide ('.' ∈ x :: xs) = decide ('.' ∈ xs) :=
        decide_eq_decide.mpr (by simp [List.mem_cons, (Ne.symm hne)])
      rw [Prod.mk.injEq]
      constructor
      · simp [Nat.add_comm, Nat.add_assoc, Nat.add_left_comm]
      · rw [hmem]
    · subst hdot
      have hcnt : ('.' :: xs).count '.' = xs.count '.' + 1 := by
        rw [List.count_cons]
        simp
      cases b with
      | true =>
        rw [hcnt] at hcount
        simp at hcount
      | false =>
        rw [scanNumeric_some hc, if_neg (by decide), if_pos (by decide)]
        have hstep := dropBytes_step hd
        have hsz : Char.utf8Size '.' = 1 := by decide
        rw [hsz] at hstep
        rw [hcnt] at hcount
        simp at hcount
        rw [ih (fun y hy => hx y (by simp [hy])) (pos + 1) true hstep
          (by simp; omega)]
        rw [Prod.mk.injEq]
        constructor
        · simp [Nat.add_comm, Nat.add_assoc, Nat.add_left_comm]
        · simp

/-- C5. Lexing a numeric literal — a digit followed by digits with at most
one point — emits `Float` of the literal's exact decimal value iff a point
occurs in it and `Number` otherwise; when the digit string does not fit the
signed 64-bit range, lexing fails with the *NumericParse* diagnostic instead
of emitting any token. -/
theorem C5_thm (c : Char) (rest : List Char) (hdig : c.isDigit)
    (hshape : ∀ x ∈ c :: rest, x.isDigit ∨ x = '.')
    (hdots : (c :: rest).count '.' ≤ 1) :
    tokenize (c :: rest) =
      if '.' ∈ c :: rest then .ok [Token.Float (ratOfDecimal (c :: rest))]
      else if digitsToNat (c :: rest) < 2 ^ 63 then
        .ok [Token.Number (digitsToNat (c :: rest))]
      else .err "Failed to parse integer" := by
  have hsz : ∀ x ∈ c :: rest, x.utf8Size = 1 := by
    intro x hx
    rcases hshape x hx with h | h
    · have := isDigit_toNat h
      exact utf8Size_one (by omega)
    · subst h
      decide
  have hlen : utf8Len (c :: rest) = (c :: rest).length := utf8Len_ascii hsz
  have hscan : scanNumeric (c :: rest) 0 false =
      ((c :: rest).length, decide ('.' ∈ c :: rest)) := by
    have := scanNumeric_all (c :: rest) hshape (c :: rest) 0 false
      (dropBytes_zero _) (by simpa using hdots)
    simpa using this
  have hsl : sliceBytes (c :: rest) 0 (scanNumeric (c :: rest) 0 false).1 =
      some (c :: rest) := by
    have hx := sliceBytes_suffix (dropBytes_zero (c :: rest))
    rw [hscan]
    simpa [← hlen] using hx
  have hH := @handleNumeric_eq (c :: rest) 0 [] (c :: rest) hsl
  have hs1 : (scanNumeric (c :: rest) 0 false).1 = (c :: rest).length := by
    rw [hscan]
  have hs2 : (scanNumeric (c :: rest) 0 false).2 = decide ('.' ∈ c :: rest) := by
    rw [hscan]
  rw [hs1, hs2] at hH
  have hc0 : decodeAt (c :: rest) 0 = some c := by
    rw [decodeAt, dropBytes_zero]
    rfl
  have hlt : 0 < utf8Len (c :: rest) := by
    rw [utf8Len_cons]
    have := Char.utf8Size_pos c
    omega
  obtain ⟨d1, d2, d3, d4, d5, d6⟩ := word_dispatch (Or.inr hdig)
  have hstep := @tokenizeLoop_dig (c :: rest) 0 [] c hlt hc0 d1 d2 d3 d4 d5 d6
    (digit_not_alpha hdig) hdig
  have hdone : ¬(c :: rest).length < utf8Len (c :: rest) := by omega
  by_cases hmem : '.' ∈ c :: rest
  · have hpf : parseF64 (c :: rest) = some (ratOfDecimal (c :: rest)) := by
      rw [parseF64, if_pos]
      refine ⟨by simp, hshape, hdots, ?_⟩
      intro he
      injection he with h1 h2
      subst h1
      simp at hdig
    rw [show decide ('.' ∈ c :: rest) = true by simp [hmem]] at hH
    rw [if_pos rfl] at hH
    rw [hpf] at hH
    rw [tokenize, hstep, hH]
    rw [if_pos hmem]
    simpa using @tokenizeLoop_done (c :: rest) (c :: rest).length
      ([] ++ [Token.Float (ratOfDecimal (c :: rest))]) hdone
  · have halldig : ∀ x ∈ c :: rest, x.isDigit := by
      intro x hx
      rcases hshape x hx with h | h
      · exact h
      · subst h
        exact absurd hx hmem
    have hguard : (c :: rest) ≠ [] ∧ ∀ x ∈ c :: rest, x.isDigit := ⟨by simp, halldig⟩
    rw [show decide ('.' ∈ c :: rest) = false by simp [hmem]] at hH
    rw [if_neg (by simp)] at hH
    rw [parseI64, if_pos hguard] at hH
    by_cases hsmall : digitsToNat (c :: rest) < 2 ^ 63
    · rw [if_pos hsmall] at hH
      rw [tokenize, hstep, hH]
      rw [if_neg hmem, if_pos hsmall]
      simpa using @tokenizeLoop_done (c :: rest) (c :: rest).length
        ([] ++ [Token.Number (digitsToNat (c :: rest))]) hdone
    · rw [if_neg hsmall] at hH
      rw [tokenize, hstep, hH]
      rw [if_neg hmem, if_neg hsmall]

/-- C5, witness: `12.5` lexes to the single exact `Float 25/2`; the 19-digit
`9223372036854775808` (2^63, one past the i64 maximum) fails with the integer
parse diagnostic. -/
theorem C5_witness :
    tokenize ('1' :: "2.5".data) = .ok [Token.Float (25 / 2 : ℚ)] ∧
    tokenize ('9' :: "223372036854775808".data) = .err "Failed to parse integer" := by
  constructor
  · rw [C5_thm '1' "2.5".data (by decide) (by decide) (by decide),
      if_pos (show '.' ∈ '1' :: "2.5".data by decide)]
    have h1 : List.takeWhile (fun c => c != '.') ('1' :: "2.5".data) = ['1', '2'] := by
      decide
    have h2 : (List.dropWhile (fun c => c != '.') ('1' :: "2.5".data)).drop 1 = ['5'] := by
      decide
    have hd125 : digitsToNat (['1', '2'] ++ ['5']) = 125 := by decide
    have hr : ratOfDecimal ('1' :: "2.5".data) = 25 / 2 := by
      simp only [ratOfDecimal, h1, h2, hd125]
      norm_num
    rw [hr]
  · rw [C5_thm '9' "223372036854775808".data (by decide) (by decide) (by decide),
      if_neg (by decide), if_neg (by decide)]

/-! ### Locality: a successful parse never depends on tokens past the ones
it read, so appending tokens preserves the result (C10). -/

namespace Parser

variable {extra : List Token}

theorem getElem?_append_lt {α : Type} {l1 l2 : List α} {n : Nat}
    (h : n < l1.length) : (l1 ++ l2)[n]? = l1[n]? := by
  rw [List.getElem?_append]
  simp [h]

theorem advance_append {ts : List Token} {pos : Nat} {t : Token} {p : Nat}
    (h : advance ts pos = .ok t p) : advance (ts ++ extra) pos = .ok t p := by
  obtain ⟨hm, rfl, hlen⟩ := advance_ok h
  unfold advance
  rw [getElem?_append_lt hlen]
  simp only [hm]

theorem peek_append {ts : List Token} {pos : Nat} {t : Token}
    (h : peek ts pos = some t) : peek (ts ++ extra) pos = some t := by
  have hlen := peek_some_lt h
  unfold peek at h ⊢
  rw [getElem?_append_lt hlen]
  exact h

theorem check_keyword_append {ts : List Token} {pos : Nat} {k : String} {b : Bool}
    (h : check_keyword ts pos k = some b) :
    check_keyword (ts ++ extra) pos k = some b := by
  unfold check_keyword at h ⊢
  cases hp : peek ts pos with
  | none => simp only [hp] at h; cases h
  | some t =>
    rw [peek_append hp]
    rw [hp] at h
    exact h

theorem check_append {ts : List Token} {pos : Nat} {tk : Token} {b : Bool}
    (h : check ts pos tk = some b) : check (ts ++ extra) pos tk = some b := by
  unfold check at h ⊢
  cases hp : peek ts pos with
  | none => simp only [hp] at h; cases h
  | some t =>
    rw [peek_append hp]
    rw [hp] at h
    exact h

theorem consume_token_append {ts : List Token} {pos : Nat} {tk : Token} {p : Nat}
    (h : consume_token ts pos tk = .ok () p) :
    consume_token (ts ++ extra) pos tk = .ok () p := by
  unfold consume_token at h ⊢
  cases hc : check ts pos tk with
  | none => simp only [hc] at h; cases h
  | some b =>
    rw [check_append hc]
    rw [hc] at h
    cases b with
    | true => exact h
    | false =>
      exfalso
      cases hp : peek ts pos with
      | none => simp only [hp] at h; cases h
      | some t => simp only [hp] at h; cases h

theorem parse_column_append {ts : List Token} {pos : Nat} {c : Column} {p : Nat}
    (h : parse_column ts pos = .ok c p) : parse_column (ts ++ extra) pos = .ok c p := by
  unfold parse_column at h ⊢
  cases ha : advance ts pos with
  | err m => simp only [ha] at h; cases h
  | panic => simp only [ha] at h; cases h
  | ok t p1 =>
    rw [advance_append ha]
    rw [ha] at h
    exact h

theorem parse_table_append {ts : List Token} {pos : Nat} {t : Table} {p : Nat}
    (h : parse_table ts pos = .ok t p) : parse_table (ts ++ extra) pos = .ok t p := by
  unfold parse_table at h ⊢
  cases ha : advance ts pos with
  | err m => simp only [ha] at h; cases h
  | panic => simp only [ha] at h; cases h
  | ok tk p1 =>
    rw [advance_append ha]
    rw [ha] at h
    exact h

theorem parse_value_append {ts : List Token} {pos : Nat} {v : Value} {p : Nat}
    (h : parse_value ts pos = .ok v p) : parse_value (ts ++ extra) pos = .ok v p := by
  unfold parse_value at h ⊢
  cases ha : advance ts pos with
  | err m => simp only [ha] at h; cases h
  | panic => simp only [ha] at h; cases h
  | ok tk p1 =>
    rw [advance_append ha]
    rw [ha] at h
    exact h

theorem parse_operator_append {ts : List Token} {pos : Nat} {o : Operator} {p : Nat}
    (h : parse_operator ts pos = .ok o p) :
    parse_operator (ts ++ extra) pos = .ok o p := by
  unfold parse_operator at h ⊢
  cases ha : advance ts pos with
  | err m => simp only [ha] at h; cases h
  | panic => simp only [ha] at h; cases h
  | ok tk p1 =>
    rw [advance_append ha]
    rw [ha] at h
    exact h

theorem parse_expression_append {ts : List Token} {pos : Nat} {e : ConditionEnum}
    {p : Nat} (h : parse_expression ts pos = .ok e p) :
    parse_expression (ts ++ extra) pos = .ok e p := by
  unfold parse_expression at h ⊢
  cases ha : advance ts pos with
  | err m => simp only [ha] at h; cases h
  | panic => simp only [ha] at h; cases h
  | ok tk p1 =>
    rw [advance_append ha]
    rw [ha] at h
    exact h

theorem parse_condition_append {ts : List Token} {pos : Nat} {cond : Condition}
    {p : Nat} (h : parse_condition ts pos = .ok cond p) :
    parse_condition (ts ++ extra) pos = .ok cond p := by
  unfold parse_condition at h ⊢
  cases he1 : parse_expression ts pos with
  | err m => rw [he1] at h; simp only [ParseOut.bind] at h; cases h
  | panic => rw [he1] at h; simp only [ParseOut.bind] at h; cases h
  | ok left p1 =>
    rw [he1] at h
    rw [parse_expression_append he1]
    simp only [ParseOut.bind] at h ⊢
    cases ho : parse_operator ts p1 with
    | err m => rw [ho] at h; simp only [ParseOut.bind] at h; cases h
    | panic => rw [ho] at h; simp only [ParseOut.bind] at h; cases h
    | ok op p2 =>
      rw [ho] at h
      rw [parse_operator_append ho]
      simp only [ParseOut.bind] at h ⊢
      cases he2 : parse_expression ts p2 with
      | err m => rw [he2] at h; simp only [ParseOut.bind] at h; cases h
      | panic => rw [he2] at h; simp only [ParseOut.bind] at h; cases h
      | ok right p3 =>
        rw [he2] at h
        rw [parse_expression_append he2]
        simp only [ParseOut.bind] at h ⊢
        exact h

theorem parse_set_col_err {ts : List Token} {pos : Nat} {m : String}
    (hc : parse_column ts pos = .err m) : parse_set ts pos = .err m := by
  unfold parse_set
  rw [hc]
  simp only [ParseOut.bind]

theorem parse_set_col_panic {ts : List Token} {pos : Nat}
    (hc : parse_column ts pos = .panic) : parse_set ts pos = .panic := by
  unfold parse_set
  rw [hc]
  simp only [ParseOut.bind]

theorem parse_set_adv_err {ts : List Token} {pos pos1 : Nat} {column : Column}
    {m : String} (hc : parse_column ts pos = .ok column pos1)
    (ha : advance ts pos1 = .err m) : parse_set ts pos = .err m := by
  unfold parse_set
  rw [hc]
  simp only [ParseOut.bind, ha]

theorem parse_set_adv_panic {ts : List Token} {pos pos1 : Nat} {column : Column}
    (hc : parse_column ts pos = .ok column pos1)
    (ha : advance ts pos1 = .panic) : parse_set ts pos = .panic := by
  unfold parse_set
  rw [hc]
  simp only [ParseOut.bind, ha]

/-- Characterization of `parse_set` once the `=` position holds an
`Operator` token. -/
theorem parse_set_eq_op {ts : List Token} {pos pos1 pos2 : Nat}
    {column : Column} {op : String}
    (hc : parse_column ts pos = .ok column pos1)
    (ha : advance ts pos1 = .ok (Token.Operator op) pos2) :
    parse_set ts pos =
      if op = "=" then
        (parse_value ts pos2).bind fun value pos3 => .ok ⟨column, value⟩ pos3
      else .err "Expected '=' in SET clause" := by
  unfold parse_set
  rw [hc]
  simp only [ParseOut.bind]
  split
  · rename_i op' pos2' heq
    rw [ha] at heq
    injection heq with h1 h2
    injection h1 with h1
    subst h1
    subst h2
    by_cases hop : op = "="
    · subst hop
      simp
    · simp [hop]
  · rename_i hne heq
    rw [ha] at heq
    injection heq with h1 h2
    exact absurd h1.symm (hne op)
  · rename_i heq
    rw [ha] at heq
    cases heq
  · rename_i heq
    rw [ha] at heq
    cases heq

/-- Characterization of `parse_set` when the `=` position holds anything
else. -/
theorem parse_set_eq_notop {ts : List Token} {pos pos1 pos2 : Nat}
    {column : Column} {t : Token}
    (hc : parse_column ts pos = .ok column pos1)
    (ha : advance ts pos1 = .ok t pos2)
    (hnot : ∀ op, t ≠ Token.Operator op) :
    parse_set ts pos = .err "Expected '=' operator in SET clause" := by
  unfold parse_set
  rw [hc]
  simp only [ParseOut.bind]
  split
  · rename_i op' pos2' heq
    rw [ha] at heq
    injection heq with h1 h2
    exact absurd h1 (hnot op')
  · rfl
  · rename_i heq
    rw [ha] at heq
    cases heq
  · rename_i heq
    rw [ha] at heq
    cases heq

theorem parse_set_append {ts : List Token} {pos : Nat} {u : UpdateSet} {p : Nat}
    (h : parse_set ts pos = .ok u p) : parse_set (ts ++ extra) pos = .ok u p := by
  cases hc : parse_column ts pos with
  | err m => rw [parse_set_col_err hc] at h; cases h
  | panic => rw [parse_set_col_panic hc] at h; cases h
  | ok column pos1 =>
    cases ha : advance ts pos1 with
    | err m => rw [parse_set_adv_err hc ha] at h; cases h
    | panic => rw [parse_set_adv_panic hc ha] at h; cases h
    | ok t pos2 =>
      cases t with
      | Operator op =>
        rw [parse_set_eq_op hc ha] at h
        rw [parse_set_eq_op (parse_column_append hc) (advance_append ha)]
        by_cases hop : op = "="
        · rw [if_pos hop] at h ⊢
          cases hv : parse_value ts pos2 with
          | err m => rw [hv] at h; simp only [ParseOut.bind] at h; cases h
          | panic => rw [hv] at h; simp only [ParseOut.bind] at h; cases h
          | ok value p3 =>
            rw [hv] at h
            rw [parse_value_append hv]
            simp only [ParseOut.bind] at h ⊢
            exact h
        · rw [if_neg hop] at h
          cases h
      | Keyword k =>
        rw [parse_set_eq_notop hc ha (by intro op he; cases he)] at h
        cases h
      | Identifier k =>
        rw [parse_set_eq_notop hc ha (by intro op he; cases he)] at h
        cases h
      | Float q =>
        rw [parse_set_eq_notop hc ha (by intro op he; cases he)] at h
        cases h
      | Number n =>
        rw [parse_set_eq_notop hc ha (by intro op he; cases he)] at h
        cases h
      | StringLiteral k =>
        rw [parse_set_eq_notop hc ha (by intro op he; cases he)] at h
        cases h
      | Delimiter d =>
        rw [parse_set_eq_notop hc ha (by intro op he; cases he)] at h
        cases h

theorem parse_column_list_append (ts : List Token) (pos : Nat) :
    ∀ {cs : List Column} {p : Nat}, parse_column_list ts pos = .ok cs p →
      parse_column_list (ts ++ extra) pos = .ok cs p := by
  induction pos using parse_column_list.induct ts with
  | case1 x column pos1 hc columns pos2 hrec hp ih =>
    intro cs p h
    rw [parse_column_list_comma hc hp] at h
    simp only [hrec] at h
    rw [parse_column_list_comma (parse_column_append hc) (peek_append hp)]
    rw [ih hrec]
    exact h
  | case2 x column pos1 hc m hrec hp ih =>
    intro cs p h
    rw [parse_column_list_comma hc hp] at h
    simp only [hrec] at h
    cases h
  | case3 x column pos1 hc hrec hp ih =>
    intro cs p h
    rw [parse_column_list_comma hc hp] at h
    simp only [hrec] at h
    cases h
  | case4 x column pos1 hc t hp hne =>
    intro cs p h
    rw [parse_column_list_last hc hp hne] at h
    rw [parse_column_list_last (parse_column_append hc) (peek_append hp) hne]
    exact h
  | case5 x column pos1 hc hp =>
    intro cs p h
    rw [parse_column_list_peek_panic hc hp] at h
    cases h
  | case6 x m hcol =>
    intro cs p h
    rw [parse_column_list_elem_err hcol] at h
    cases h
  | case7 x hcol =>
    intro cs p h
    rw [parse_column_list_elem_panic hcol] at h
    cases h

theorem parse_value_list_append (ts : List Token) (pos : Nat) :
    ∀ {cs : List Value} {p : Nat}, parse_value_list ts pos = .ok cs p →
      parse_value_list (ts ++ extra) pos = .ok cs p := by
  induction pos using parse_value_list.induct ts with
  | case1 x column pos1 hc columns pos2 hrec hp ih =>
    intro cs p h
    rw [parse_value_list_comma hc hp] at h
    simp only [hrec] at h
    rw [parse_value_list_comma (parse_value_append hc) (peek_append hp)]
    rw [ih hrec]
    exact h
  | case2 x column pos1 hc m hrec hp ih =>
    intro cs p h
    rw [parse_value_list_comma hc hp] at h
    simp only [hrec] at h
    cases h
  | case3 x column pos1 hc hrec hp ih =>
    intro cs p h
    rw [parse_value_list_comma hc hp] at h
    simp only [hrec] at h
    cases h
  | case4 x column pos1 hc t hp hne =>
    intro cs p h
    rw [parse_value_list_last hc hp hne] at h
    rw [parse_value_list_last (parse_value_append hc) (peek_append hp) hne]
    exact h
  | case5 x column pos1 hc hp =>
    intro cs p h
    rw [parse_value_list_peek_panic hc hp] at h
    cases h
  | case6 x m hcol =>
    intro cs p h
    rw [parse_value_list_elem_err hcol] at h
    cases h
  | case7 x hcol =>
    intro cs p h
    rw [parse_value_list_elem_panic hcol] at h
    cases h

theorem parse_set_list_append (ts : List Token) (pos : Nat) :
    ∀ {cs : List UpdateSet} {p : Nat}, parse_set_list ts pos = .ok cs p →
      parse_set_list (ts ++ extra) pos = .ok cs p := by
  induction pos using parse_set_list.induct ts with
  | case1 x column pos1 hc columns pos2 hrec hp ih =>
    intro cs p h
    rw [parse_set_list_comma hc hp] at h
    simp only [hrec] at h
    rw [parse_set_list_comma (parse_set_append hc) (peek_append hp)]
    rw [ih hrec]
    exact h
  | case2 x column pos1 hc m hrec hp ih =>
    intro cs p h
    rw [parse_set_list_comma hc hp] at h
    simp only [hrec] at h
    cases h
  | case3 x column pos1 hc hrec hp ih =>
    intro cs p h
    rw [parse_set_list_comma hc hp] at h
    simp only [hrec] at h
    cases h
  | case4 x column pos1 hc t hp hne =>
    intro cs p h
    rw [parse_set_list_last hc hp hne] at h
    rw [parse_set_list_last (parse_set_append hc) (peek_append hp) hne]
    exact h
  | case5 x column pos1 hc hp =>
    intro cs p h
    rw [parse_set_list_peek_panic hc hp] at h
    cases h
  | case6 x m hcol =>
    intro cs p h
    rw [parse_set_list_elem_err hcol] at h
    cases h
  | case7 x hcol =>
    intro cs p h
    rw [parse_set_list_elem_panic hcol] at h
    cases h

theorem handle_select_append {ts : List Token} {pos : Nat} {q : SelectQuery}
    {p : Nat} (h : handle_select ts pos = .ok q p) :
    handle_select (ts ++ extra) pos = .ok q p := by
  unfold handle_select at h ⊢
  cases hl : parse_column_list ts pos with
  | err m => rw [hl] at h; simp only [ParseOut.bind] at h; cases h
  | panic => rw [hl] at h; simp only [ParseOut.bind] at h; cases h
  | ok columns pos1 =>
    rw [hl] at h
    rw [parse_column_list_append ts pos hl]
    simp only [ParseOut.bind] at h ⊢
    cases hct : consume_token ts pos1 (Token.Keyword "FROM") with
    | err m => simp only [hct, ParseOut.bind] at h; cases h
    | panic => simp only [hct, ParseOut.bind] at h; cases h
    | ok u pos2 =>
      rw [hct] at h
      rw [consume_token_append hct]
      simp only [ParseOut.bind] at h ⊢
      cases htb : parse_table ts pos2 with
      | err m => simp only [htb, ParseOut.bind] at h; cases h
      | panic => simp only [htb, ParseOut.bind] at h; cases h
      | ok table pos3 =>
        rw [htb] at h
        rw [parse_table_append htb]
        simp only [ParseOut.bind] at h ⊢
        cases hck : check_keyword ts pos3 "WHERE" with
        | none => simp only [hck] at h; cases h
        | some b =>
          rw [hck] at h
          rw [check_keyword_append hck]
          cases b with
          | false => exact h
          | true =>
            simp only [] at h ⊢
            cases ha : advance ts pos3 with
            | err m => simp only [ha, ParseOut.bind] at h; cases h
            | panic => simp only [ha, ParseOut.bind] at h; cases h
            | ok t pos4 =>
              rw [ha] at h
              rw [advance_append ha]
              simp only [ParseOut.bind] at h ⊢
              cases hcond : parse_condition ts pos4 with
              | err m => simp only [hcond, ParseOut.bind] at h; cases h
              | panic => simp only [hcond, ParseOut.bind] at h; cases h
              | ok cond pos5 =>
                rw [hcond] at h
                rw [parse_condition_append hcond]
                simp only [ParseOut.bind] at h ⊢
                exact h

theorem handle_insert_append {ts : List Token} {pos : Nat} {q : InsertQuery}
    {p : Nat} (h : handle_insert ts pos = .ok q p) :
    handle_insert (ts ++ extra) pos = .ok q p := by
  unfold handle_insert at h ⊢
  cases h1 : consume_token ts pos (Token.Keyword "INTO") with
  | err m => simp only [h1, ParseOut.bind] at h; cases h
  | panic => simp only [h1, ParseOut.bind] at h; cases h
  | ok u1 pos1 =>
    rw [h1] at h
    rw [consume_token_append h1]
    simp only [ParseOut.bind] at h ⊢
    cases h2 : parse_table ts pos1 with
    | err m => simp only [h2, ParseOut.bind] at h; cases h
    | panic => simp only [h2, ParseOut.bind] at h; cases h
    | ok table pos2 =>
      rw [h2] at h
      rw [parse_table_append h2]
      simp only [ParseOut.bind] at h ⊢
      cases h3 : consume_token ts pos2 (Token.Delimiter '(') with
      | err m => simp only [h3, ParseOut.bind] at h; cases h
      | panic => simp only [h3, ParseOut.bind] at h; cases h
      | ok u3 pos3 =>
        rw [h3] at h
        rw [consume_token_append h3]
        simp only [ParseOut.bind] at h ⊢
        cases h4 : parse_column_list ts pos3 with
        | err m => simp only [h4, ParseOut.bind] at h; cases h
        | panic => simp only [h4, ParseOut.bind] at h; cases h
        | ok columns pos4 =>
          rw [h4] at h
          rw [parse_column_list_append ts pos3 h4]
          simp only [ParseOut.bind] at h ⊢
          cases h5 : consume_token ts pos4 (Token.Delimiter ')') with
          | err m => simp only [h5, ParseOut.bind] at h; cases h
          | panic => simp only [h5, ParseOut.bind] at h; cases h
          | ok u5 pos5 =>
            rw [h5] at h
            rw [consume_token_append h5]
            simp only [ParseOut.bind] at h ⊢
            cases h6 : consume_token ts pos5 (Token.Keyword "VALUES") with
            | err m => simp only [h6, ParseOut.bind] at h; cases h
            | panic => simp only [h6, ParseOut.bind] at h; cases h
            | ok u6 pos6 =>
              rw [h6] at h
              rw [consume_token_append h6]
              simp only [ParseOut.bind] at h ⊢
              cases h7 : consume_token ts pos6 (Token.Delimiter '(') with
              | err m => simp only [h7, ParseOut.bind] at h; cases h
              | panic => simp only [h7, ParseOut.bind] at h; cases h
              | ok u7 pos7 =>
                rw [h7] at h
                rw [consume_token_append h7]
                simp only [ParseOut.bind] at h ⊢
                cases h8 : parse_value_list ts pos7 with
                | err m => simp only [h8, ParseOut.bind] at h; cases h
                | panic => simp only [h8, ParseOut.bind] at h; cases h
                | ok values pos8 =>
                  rw [h8] at h
                  rw [parse_value_list_append ts pos7 h8]
                  simp only [ParseOut.bind] at h ⊢
                  cases h9 : consume_token ts pos8 (Token.Delimiter ')') with
                  | err m => simp only [h9, ParseOut.bind] at h; cases h
                  | panic => simp only [h9, ParseOut.bind] at h; cases h
                  | ok u9 pos9 =>
                    rw [h9] at h
                    rw [consume_token_append h9]
                    simp only [ParseOut.bind] at h ⊢
                    exact h

theorem handle_update_append {ts : List Token} {pos : Nat} {q : UpdateQuery}
    {p : Nat} (h : handle_update ts pos = .ok q p) :
    handle_update (ts ++ extra) pos = .ok q p := by
  unfold handle_update at h ⊢
  cases h1 : parse_table ts pos with
  | err m => simp only [h1, ParseOut.bind] at h; cases h
  | panic => simp only [h1, ParseOut.bind] at h; cases h
  | ok table pos1 =>
    rw [h1] at h
    rw [parse_table_append h1]
    simp only [ParseOut.bind] at h ⊢
    cases h2 : consume_token ts pos1 (Token.Keyword "SET") with
    | err m => simp only [h2, ParseOut.bind] at h; cases h
    | panic => simp only [h2, ParseOut.bind] at h; cases h
    | ok u2 pos2 =>
      rw [h2] at h
      rw [consume_token_append h2]
      simp only [ParseOut.bind] at h ⊢
      cases h3 : parse_set_list ts pos2 with
      | err m => simp only [h3, ParseOut.bind] at h; cases h
      | panic => simp only [h3, ParseOut.bind] at h; cases h
      | ok changes pos3 =>
        rw [h3] at h
        rw [parse_set_list_append ts pos2 h3]
        simp only [ParseOut.bind] at h ⊢
        cases hck : check_keyword ts pos3 "WHERE" with
        | none => simp only [hck] at h; cases h
        | some b =>
          rw [hck] at h
          rw [check_keyword_append hck]
          cases b with
          | false => exact h
          | true =>
            simp only [] at h ⊢
            cases ha : advance ts pos3 with
            | err m => simp only [ha, ParseOut.bind] at h; cases h
            | panic => simp only [ha, ParseOut.bind] at h; cases h
            | ok t pos4 =>
              rw [ha] at h
              rw [advance_append ha]
              simp only [ParseOut.bind] at h ⊢
              cases hcond : parse_condition ts pos4 with
              | err m => simp only [hcond, ParseOut.bind] at h; cases h
              | panic => simp only [hcond, ParseOut.bind] at h; cases h
              | ok cond pos5 =>
                rw [hcond] at h
                rw [parse_condition_append hcond]
                simp only [ParseOut.bind] at h ⊢
                exact h

theorem handle_delete_append {ts : List Token} {pos : Nat} {q : DeleteQuery}
    {p : Nat} (h : handle_delete ts pos = .ok q p) :
    handle_delete (ts ++ extra) pos = .ok q p := by
  unfold handle_delete at h ⊢
  cases h1 : consume_token ts pos (Token.Keyword "FROM") with
  | err m => simp only [h1, ParseOut.bind] at h; cases h
  | panic => simp only [h1, ParseOut.bind] at h; cases h
  | ok u1 pos1 =>
    rw [h1] at h
    rw [consume_token_append h1]
    simp only [ParseOut.bind] at h ⊢
    cases h2 : parse_table ts pos1 with
    | err m => simp only [h2, ParseOut.bind] at h; cases h
    | panic => simp only [h2, ParseOut.bind] at h; cases h
    | ok table pos2 =>
      rw [h2] at h
      rw [parse_table_append h2]
      simp only [ParseOut.bind] at h ⊢
      cases hck : check_keyword ts pos2 "WHERE" with
      | none => simp only [hck] at h; cases h
      | some b =>
        rw [hck] at h
        rw [check_keyword_append hck]
        cases b with
        | false => exact h
        | true =>
          simp only [] at h ⊢
          cases ha : advance ts pos2 with
          | err m => simp only [ha, ParseOut.bind] at h; cases h
          | panic => simp only [ha, ParseOut.bind] at h; cases h
          | ok t pos3 =>
            rw [ha] at h
            rw [advance_append ha]
            simp only [ParseOut.bind] at h ⊢
            cases hcond : parse_condition ts pos3 with
            | err m => simp only [hcond, ParseOut.bind] at h; cases h
            | panic => simp only [hcond, ParseOut.bind] at h; cases h
            | ok cond pos4 =>
              rw [hcond] at h
              rw [parse_condition_append hcond]
              simp only [ParseOut.bind] at h ⊢
              exact h

/-- Characterization of `parse` when the first token is a keyword. -/
theorem parse_eq_kw {ts : List Token} {keyword : String} {pos1 : Nat}
    (ha : advance ts 0 = .ok (Token.Keyword keyword) pos1) :
    parse ts =
      if keyword = "SELECT" then
        (handle_select ts pos1).bind fun q p => .ok (Query.Select q) p
      else if keyword = "INSERT" then
        (handle_insert ts pos1).bind fun q p => .ok (Query.Insert q) p
      else if keyword = "UPDATE" then
        (handle_update ts pos1).bind fun q p => .ok (Query.Update q) p
      else if keyword = "DELETE" then
        (handle_delete ts pos1).bind fun q p => .ok (Query.Delete q) p
      else .err "Invalid query type" := by
  unfold parse
  split
  · rename_i k' p' heq
    rw [ha] at heq
    injection heq with h1 h2
    injection h1 with h1
    subst h1
    subst h2
    rfl
  · rename_i hne heq
    rw [ha] at heq
    injection heq with h1 h2
    exact absurd h1.symm (hne keyword)
  · rename_i heq
    rw [ha] at heq
    cases heq
  · rename_i heq
    rw [ha] at heq
    cases heq

theorem parse_append {ts : List Token} {q : Query} {n : Nat}
    (h : parse ts = .ok q n) : parse (ts ++ extra) = .ok q n := by
  cases ha : advance ts 0 with
  | err m =>
    unfold parse at h
    simp only [ha] at h
    cases h
  | panic =>
    unfold parse at h
    simp only [ha] at h
    cases h
  | ok t pos1 =>
    cases t with
    | Keyword keyword =>
      rw [parse_eq_kw ha] at h
      rw [parse_eq_kw (advance_append ha)]
      by_cases hS : keyword = "SELECT"
      · rw [if_pos hS] at h ⊢
        cases hq : handle_select ts pos1 with
        | err m => rw [hq] at h; simp only [ParseOut.bind] at h; cases h
        | panic => rw [hq] at h; simp only [ParseOut.bind] at h; cases h
        | ok sq p =>
          rw [hq] at h
          rw [handle_select_append hq]
          simp only [ParseOut.bind] at h ⊢
          exact h
      · rw [if_neg hS] at h ⊢
        by_cases hI : keyword = "INSERT"
        · rw [if_pos hI] at h ⊢
          cases hq : handle_insert ts pos1 with
          | err m => rw [hq] at h; simp only [ParseOut.bind] at h; cases h
          | panic => rw [hq] at h; simp only [ParseOut.bind] at h; cases h
          | ok iq p =>
            rw [hq] at h
            rw [handle_insert_append hq]
            simp only [ParseOut.bind] at h ⊢
            exact h
        · rw [if_neg hI] at h ⊢
          by_cases hU : keyword = "UPDATE"
          · rw [if_pos hU] at h ⊢
            cases hq : handle_update ts pos1 with
            | err m => rw [hq] at h; simp only [ParseOut.bind] at h; cases h
            | panic => rw [hq] at h; simp only [ParseOut.bind] at h; cases h
            | ok uq p =>
              rw [hq] at h
              rw [handle_update_append hq]
              simp only [ParseOut.bind] at h ⊢
              exact h
          · rw [if_neg hU] at h ⊢
            by_cases hD : keyword = "DELETE"
            · rw [if_pos hD] at h ⊢
              cases hq : handle_delete ts pos1 with
              | err m => rw [hq] at h; simp only [ParseOut.bind] at h; cases h
              | panic => rw [hq] at h; simp only [ParseOut.bind] at h; cases h
              | ok dq p =>
                rw [hq] at h
                rw [handle_delete_append hq]
                simp only [ParseOut.bind] at h ⊢
                exact h
            · rw [if_neg hD] at h
              cases h
    | Identifier k =>
      unfold parse at h
      simp only [ha] at h
      cases h
    | Float f =>
      unfold parse at h
      simp only [ha] at h
      cases h
    | Number nn =>
      unfold parse at h
      simp only [ha] at h
      cases h
    | StringLiteral k =>
      unfold parse at h
      simp only [ha] at h
      cases h
    | Operator o =>
      unfold parse at h
      simp only [ha] at h
      cases h
    | Delimiter d =>
      unfold parse at h
      simp only [ha] at h
      cases h

end Parser

/-- C10. A successful parse reads only the tokens up to its final cursor
(the `WHERE` lookahead inspects a position that a successful parse proves
in-bounds), so appending arbitrary extra tokens — trailing garbage, or a
whole second statement after the `;` — leaves the result identical and is
silently accepted. -/
theorem C10_thm (ts extra : List Token) (q : Query) (n : Nat)
    (h : Parser.parse ts = .ok q n) : Parser.parse (ts ++ extra) = .ok q n :=
  Parser.parse_append h

/-- C10, witness: a second full `SELECT a FROM t;` after the first is
ignored, and the parse result is unchanged. -/
theorem C10_witness :
    Parser.parse (selSemiTokens ++ selSemiTokens) = .ok selQuery 4 :=
  C10_thm selSemiTokens selSemiTokens selQuery 4 parse_selSemi_eval

/-! ### Every `Number` token the lexer emits is non-negative (C9) -/

/-- `parseI64` only ever returns the value of an unsigned digit string. -/
theorem parseI64_nonneg {w : List Char} {n : Int} (h : parseI64 w = some n) :
    0 ≤ n := by
  unfold parseI64 at h
  split at h
  · split at h
    · injection h with h
      subst h
      exact Int.ofNat_nonneg _
    · cases h
  · cases h

/-- The literal scan appends exactly one `StringLiteral` token. -/
theorem literalsLoop_tokens {input : List Char} {quoteChar : Char}
    {start pos : Nat} {toks toks' : List Token} {pos' : Nat}
    (h : literalsLoop input quoteChar start pos toks = .ok (toks', pos')) :
    ∃ w, toks' = toks ++ [Token.StringLiteral w] := by
  induction pos, toks using literalsLoop.induct input quoteChar start with
  | case1 pos toks w hsl hdec =>
    rw [literalsLoop_match hdec hsl] at h
    injection h with h
    have h1 := congrArg Prod.fst h
    simp at h1
    exact ⟨⟨w⟩, h1.symm⟩
  | case2 pos toks hsl hdec =>
    rw [literalsLoop_match_panic hdec hsl] at h
    cases h
  | case3 pos toks c hdec hne ih =>
    rw [literalsLoop_skip hdec hne] at h
    exact ih h
  | case4 pos toks hdec =>
    rw [literalsLoop_end hdec] at h
    cases h

/-- Splitting membership across a single pushed token. -/
theorem pushed_number {toks : List Token} {t : Token} {n : Int}
    (hshape : ∀ m : Int, t = Token.Number m → 0 ≤ m)
    (hmem : Token.Number n ∈ toks ++ [t]) :
    Token.Number n ∈ toks ∨ 0 ≤ n := by
  rcases List.mem_append.mp hmem with h1 | h2
  · exact Or.inl h1
  · simp only [List.mem_singleton] at h2
    exact Or.inr (hshape n h2.symm)

theorem handleLiterals_shape {input : List Char} {pos : Nat}
    {toks : List Token} {r : List Token × Nat}
    (hh : handleLiterals input pos toks = .ok r) :
    ∃ t, r.1 = toks ++ [t] ∧ ∀ m : Int, t = Token.Number m → 0 ≤ m := by
  unfold handleLiterals at hh
  cases hd : decodeAt input pos with
  | none => rw [hd] at hh; cases hh
  | some qc =>
    rw [hd] at hh
    obtain ⟨w, hw⟩ := @literalsLoop_tokens input qc (pos + 1) (pos + 1) toks r.1 r.2 hh
    exact ⟨Token.StringLiteral w, hw, fun m hm => by cases hm⟩

theorem handleOperator_shape {input : List Char} {pos : Nat}
    {toks : List Token} {c : Char} {r : List Token × Nat}
    (hh : handleOperator input pos toks c = .ok r) :
    ∃ t, r.1 = toks ++ [t] ∧ ∀ m : Int, t = Token.Number m → 0 ≤ m := by
  unfold handleOperator at hh
  cases hd : decodeAt input (pos + 1) with
  | none =>
    simp only [hd] at hh
    injection hh with hh
    exact ⟨_, by rw [← hh], fun m hm => by cases hm⟩
  | some nc =>
    simp only [hd] at hh
    split at hh
    · injection hh with hh
      exact ⟨_, by rw [← hh], fun m hm => by cases hm⟩
    · split at hh
      · injection hh with hh
        exact ⟨_, by rw [← hh], fun m hm => by cases hm⟩
      · injection hh with hh
        exact ⟨_, by rw [← hh], fun m hm => by cases hm⟩

theorem handleLogicalOperator_shape {input : List Char} {pos : Nat}
    {toks : List Token} {c : Char} {r : List Token × Nat}
    (hh : handleLogicalOperator input pos toks c = .ok r) :
    ∃ t, r.1 = toks ++ [t] ∧ ∀ m : Int, t = Token.Number m → 0 ≤ m := by
  unfold handleLogicalOperator at hh
  cases hd : decodeAt input (pos + 1) with
  | none =>
    simp only [hd] at hh
    injection hh with hh
    exact ⟨_, by rw [← hh], fun m hm => by cases hm⟩
  | some nc =>
    simp only [hd] at hh
    split at hh
    · injection hh with hh
      exact ⟨_, by rw [← hh], fun m hm => by cases hm⟩
    · injection hh with hh
      exact ⟨_, by rw [← hh], fun m hm => by cases hm⟩

theorem handleAlphabetic_shape {input : List Char} {pos : Nat}
    {toks : List Token} {r : List Token × Nat}
    (hh : handleAlphabetic input pos toks = .ok r) :
    ∃ t, r.1 = toks ++ [t] ∧ ∀ m : Int, t = Token.Number m → 0 ≤ m := by
  cases hsl : sliceBytes input pos (scanWord input pos) with
  | none => rw [handleAlphabetic_panic hsl] at hh; cases hh
  | some w =>
    rw [handleAlphabetic_eq hsl] at hh
    injection hh with hh
    refine ⟨_, by rw [← hh], fun m hm => ?_⟩
    split at hm <;> cases hm

theorem handleNumeric_shape {input : List Char} {pos : Nat}
    {toks : List Token} {r : List Token × Nat}
    (hh : handleNumeric input pos toks = .ok r) :
    ∃ t, r.1 = toks ++ [t] ∧ ∀ m : Int, t = Token.Number m → 0 ≤ m := by
  cases hsl : sliceBytes input pos (scanNumeric input pos false).1 with
  | none => rw [handleNumeric_panic hsl] at hh; cases hh
  | some w =>
    rw [handleNumeric_eq hsl] at hh
    split at hh
    · cases hq : parseF64 w <;> rw [hq] at hh
      · cases hh
      · injection hh with hh
        exact ⟨_, by rw [← hh], fun m hm => by cases hm⟩
    · cases hn : parseI64 w <;> rw [hn] at hh
      · cases hh
      · injection hh with hh
        refine ⟨_, by rw [← hh], fun m hm => ?_⟩
        injection hm with hm
        subst hm
        exact parseI64_nonneg hn

/-- Invariant carried by the token accumulator through the whole run: a
`Number` in the final token list was already in the accumulator or is
non-negative (only `handle_numeric` emits `Number`, from `parseI64`). -/
theorem tokenizeLoop_numbers (input : List Char) :
    ∀ (k pos : Nat) (toks toks' : List Token), utf8Len input - pos ≤ k →
      tokenizeLoop input pos toks = .ok toks' →
      ∀ n : Int, Token.Number n ∈ toks' → Token.Number n ∈ toks ∨ 0 ≤ n := by
  intro k
  induction k with
  | zero =>
    intro pos toks toks' hk h n hn
    rw [tokenizeLoop_done (by omega)] at h
    injection h with h
    subst h
    exact Or.inl hn
  | succ k ih =>
    intro pos toks toks' hk h n hn
    by_cases hlt : pos < utf8Len input
    · cases hc : decodeAt input pos with
      | none =>
        rw [tokenizeLoop_noChar hlt hc] at h
        injection h with h
        subst h
        exact Or.inl hn
      | some c =>
        by_cases hws : rustIsWhitespace c
        · rw [tokenizeLoop_ws hlt hc hws] at h
          exact ih pos.succ toks toks' (by omega) h n hn
        · by_cases hq : c = dquoteChar ∨ c = squoteChar
          · rw [tokenizeLoop_quote hlt hc hws hq] at h
            cases hh : handleLiterals input pos toks with
            | err m => simp only [hh] at h; cases h
            | panic => simp only [hh] at h; cases h
            | ok r =>
              simp only [hh] at h
              have hpos := @handleLiterals_ok_pos input pos toks r.1 r.2 hh
              obtain ⟨t, hr, hsh⟩ := handleLiterals_shape hh
              rcases ih r.2 r.1 toks' (by omega) h n hn with hmem | hge
              · rw [hr] at hmem
                exact pushed_number hsh hmem
              · exact Or.inr hge
          · by_cases hd : c = ';' ∨ c = ',' ∨ c = '(' ∨ c = ')'
            · rw [tokenizeLoop_delim hlt hc hws hq hd] at h
              rcases ih pos.succ (toks ++ [.Delimiter c]) toks' (by omega) h n hn
                  with hmem | hge
              · exact pushed_number (fun m hm => by cases hm) hmem
              · exact Or.inr hge
            · by_cases hop : "+-*/=".data.contains c
              · rw [tokenizeLoop_opchar hlt hc hws hq hd hop] at h
                rcases ih pos.succ (toks ++ [.Operator ⟨[c]⟩]) toks' (by omega) h n hn
                    with hmem | hge
                · exact pushed_number (fun m hm => by cases hm) hmem
                · exact Or.inr hge
              · by_cases hcmp : c = '<' ∨ c = '>' ∨ c = '!'
                · rw [tokenizeLoop_cmp hlt hc hws hq hd hop hcmp] at h
                  cases hh : handleOperator input pos toks c with
                  | err m => simp only [hh] at h; cases h
                  | panic => simp only [hh] at h; cases h
                  | ok r =>
                    simp only [hh] at h
                    have hpos := @handleOperator_ok_pos input pos c toks r.1 r.2 hh
                    obtain ⟨t, hr, hsh⟩ := handleOperator_shape hh
                    rcases ih r.2 r.1 toks' (by omega) h n hn with hmem | hge
                    · rw [hr] at hmem
                      exact pushed_number hsh hmem
                    · exact Or.inr hge
                · by_cases hlog : c = '&' ∨ c = '|'
                  · rw [tokenizeLoop_log hlt hc hws hq hd hop hcmp hlog] at h
                    cases hh : handleLogicalOperator input pos toks c with
                    | err m => simp only [hh] at h; cases h
                    | panic => simp only [hh] at h; cases h
                    | ok r =>
                      simp only [hh] at h
                      have hpos :=
                        @handleLogicalOperator_ok_pos input pos c toks r.1 r.2 hh
                      obtain ⟨t, hr, hsh⟩ := handleLogicalOperator_shape hh
                      rcases ih r.2 r.1 toks' (by omega) h n hn with hmem | hge
                      · rw [hr] at hmem
                        exact pushed_number hsh hmem
                      · exact Or.inr hge
                  · by_cases hal : rustIsAlphabetic c
                    · rw [tokenizeLoop_alpha hlt hc hws hq hd hop hcmp hlog hal] at h
                      cases hh : handleAlphabetic input pos toks with
                      | err m => simp only [hh] at h; cases h
                      | panic => simp only [hh] at h; cases h
                      | ok r =>
                        simp only [hh] at h
                        have hpos :=
                          @handleAlphabetic_ok_pos input pos c toks r.1 r.2 hc hal hh
                        obtain ⟨t, hr, hsh⟩ := handleAlphabetic_shape hh
                        rcases ih r.2 r.1 toks' (by omega) h n hn with hmem | hge
                        · rw [hr] at hmem
                          exact pushed_number hsh hmem
                        · exact Or.inr hge
                    · by_cases hdig : c.isDigit
                      · rw [tokenizeLoop_dig hlt hc hws hq hd hop hcmp hlog hal hdig] at h
                        cases hh : handleNumeric input pos toks with
                        | err m => simp only [hh] at h; cases h
                        | panic => simp only [hh] at h; cases h
                        | ok r =>
                          simp only [hh] at h
                          have hpos :=
                            @handleNumeric_ok_pos input pos c toks r.1 r.2 hc hdig hh
                          obtain ⟨t, hr, hsh⟩ := handleNumeric_shape hh
                          rcases ih r.2 r.1 toks' (by omega) h n hn with hmem | hge
                          · rw [hr] at hmem
                            exact pushed_number hsh hmem
                          · exact Or.inr hge
                      · rw [tokenizeLoop_unrec hlt hc hws hq hd hop hcmp hlog hal hdig] at h
                        cases h
    · rw [tokenizeLoop_done hlt] at h
      injection h with h
      subst h
      exact Or.inl hn

/-- Every `Number` token in a successful lexer run is non-negative. -/
theorem tokenize_numbers_nonneg {input : List Char} {toks : List Token}
    (h : tokenize input = .ok toks) :
    ∀ n : Int, Token.Number n ∈ toks → 0 ≤ n := by
  intro n hn
  rcases tokenizeLoop_numbers input (utf8Len input) 0 [] toks (by omega) h n hn with
    hmem | hge
  · cases hmem
  · exact hge

/-! ### Integer literals inside a parsed query (C9) -/

/-- The integer literals inside a `Value`. -/
def valueInts : Value → List Int
  | .Integer n => [n]
  | .Float _ => []
  | .Text _ => []

/-- The integer literals inside a condition operand. -/
def operandInts : ConditionEnum → List Int
  | .Field _ => []
  | .Value v => valueInts v

/-- The integer literals inside a condition. -/
def conditionInts (c : Condition) : List Int :=
  operandInts c.left ++ operandInts c.right

/-- The integer literals inside an optional `WHERE` clause. -/
def optCondInts : Option Condition → List Int
  | some c => conditionInts c
  | none => []

/-- Every integer literal appearing anywhere in a parsed query: `INSERT`
values, `SET` assignments, and condition operands. -/
def queryInts : Query → List Int
  | .Select q => optCondInts q.where_clause
  | .Insert q => (q.values.map valueInts).flatten
  | .Update q => (q.changes.map (fun u => valueInts u.value)).flatten ++
      optCondInts q.where_clause
  | .Delete q => optCondInts q.where_clause

namespace Parser

/-- Notation-free shorthand for the token invariant of C9. -/
def NumbersNonneg (ts : List Token) : Prop :=
  ∀ m : Int, Token.Number m ∈ ts → 0 ≤ m

theorem parse_value_nonneg {ts : List Token} {pos : Nat} {v : Value} {p : Nat}
    (hts : NumbersNonneg ts) (h : parse_value ts pos = .ok v p) :
    ∀ m ∈ valueInts v, 0 ≤ m := by
  unfold parse_value at h
  cases ha : advance ts pos with
  | err m => simp only [ha] at h; cases h
  | panic => simp only [ha] at h; cases h
  | ok t p1 =>
    obtain ⟨hm, rfl, hlen⟩ := advance_ok ha
    rw [ha] at h
    have htmem : t ∈ ts := List.getElem?_mem hm
    cases t <;> cases h <;> intro m hmem <;> simp [valueInts] at hmem
    subst hmem
    exact hts _ htmem

theorem parse_expression_nonneg {ts : List Token} {pos : Nat}
    {e : ConditionEnum} {p : Nat} (hts : NumbersNonneg ts)
    (h : parse_expression ts pos = .ok e p) : ∀ m ∈ operandInts e, 0 ≤ m := by
  unfold parse_expression at h
  cases ha : advance ts pos with
  | err m => simp only [ha] at h; cases h
  | panic => simp only [ha] at h; cases h
  | ok t p1 =>
    obtain ⟨hm, rfl, hlen⟩ := advance_ok ha
    rw [ha] at h
    have htmem : t ∈ ts := List.getElem?_mem hm
    cases t <;> cases h <;> intro m hmem <;>
      simp [operandInts, valueInts] at hmem
    subst hmem
    exact hts _ htmem

theorem parse_condition_nonneg {ts : List Token} {pos : Nat} {cond : Condition}
    {p : Nat} (hts : NumbersNonneg ts) (h : parse_condition ts pos = .ok cond p) :
    ∀ m ∈ conditionInts cond, 0 ≤ m := by
  unfold parse_condition at h
  cases he1 : parse_expression ts pos with
  | err m => rw [he1] at h; simp only [ParseOut.bind] at h; cases h
  | panic => rw [he1] at h; simp only [ParseOut.bind] at h; cases h
  | ok left p1 =>
    rw [he1] at h
    simp only [ParseOut.bind] at h
    cases ho : parse_operator ts p1 with
    | err m => rw [ho] at h; simp only [ParseOut.bind] at h; cases h
    | panic => rw [ho] at h; simp only [ParseOut.bind] at h; cases h
    | ok op p2 =>
      rw [ho] at h
      simp only [ParseOut.bind] at h
      cases he2 : parse_expression ts p2 with
      | err m => rw [he2] at h; simp only [ParseOut.bind] at h; cases h
      | panic => rw [he2] at h; simp only [ParseOut.bind] at h; cases h
      | ok right p3 =>
        rw [he2] at h
        simp only [ParseOut.bind] at h
        cases h
        intro m hmem
        rw [conditionInts] at hmem
        rcases List.mem_append.mp hmem with h1 | h2
        · exact parse_expression_nonneg hts he1 m h1
        · exact parse_expression_nonneg hts he2 m h2

theorem parse_set_nonneg {ts : List Token} {pos : Nat} {u : UpdateSet} {p : Nat}
    (hts : NumbersNonneg ts) (h : parse_set ts pos = .ok u p) :
    ∀ m ∈ valueInts u.value, 0 ≤ m := by
  cases hc : parse_column ts pos with
  | err m => rw [parse_set_col_err hc] at h; cases h
  | panic => rw [parse_set_col_panic hc] at h; cases h
  | ok column pos1 =>
    cases ha : advance ts pos1 with
    | err m => rw [parse_set_adv_err hc ha] at h; cases h
    | panic => rw [parse_set_adv_panic hc ha] at h; cases h
    | ok t pos2 =>
      cases t with
      | Operator op =>
        rw [parse_set_eq_op hc ha] at h
        by_cases hop : op = "="
        · rw [if_pos hop] at h
          cases hv : parse_value ts pos2 with
          | err m => rw [hv] at h; simp only [ParseOut.bind] at h; cases h
          | panic => rw [hv] at h; simp only [ParseOut.bind] at h; cases h
          | ok value p3 =>
            rw [hv] at h
            simp only [ParseOut.bind] at h
            cases h
            exact parse_value_nonneg hts hv
        · rw [if_neg hop] at h
          cases h
      | Keyword k =>
        rw [parse_set_eq_notop hc ha (by intro o he; cases he)] at h
        cases h
      | Identifier k =>
        rw [parse_set_eq_notop hc ha (by intro o he; cases he)] at h
        cases h
      | Float q =>
        rw [parse_set_eq_notop hc ha (by intro o he; cases he)] at h
        cases h
      | Number nn =>
        rw [parse_set_eq_notop hc ha (by intro o he; cases he)] at h
        cases h
      | StringLiteral k =>
        rw [parse_set_eq_notop hc ha (by intro o he; cases he)] at h
        cases h
      | Delimiter d =>
        rw [parse_set_eq_notop hc ha (by intro o he; cases he)] at h
        cases h

theorem parse_value_list_nonneg (ts : List Token) (pos : Nat)
    (hts : NumbersNonneg ts) :
    ∀ {vs : List Value} {p : Nat}, parse_value_list ts pos = .ok vs p →
      ∀ v ∈ vs, ∀ m ∈ valueInts v, 0 ≤ m := by
  induction pos using parse_value_list.induct ts with
  | case1 x value pos1 hv values pos2 hrec hp ih =>
    intro vs p h v hvmem
    rw [parse_value_list_comma hv hp] at h
    simp only [hrec] at h
    cases h
    rcases List.mem_cons.mp hvmem with h1 | h2
    · subst h1
      exact parse_value_nonneg hts hv
    · exact ih hrec v h2
  | case2 x value pos1 hv m hrec hp ih =>
    intro vs p h
    rw [parse_value_list_comma hv hp] at h
    simp only [hrec] at h
    cases h
  | case3 x value pos1 hv hrec hp ih =>
    intro vs p h
    rw [parse_value_list_comma hv hp] at h
    simp only [hrec] at h
    cases h
  | case4 x value pos1 hv t hp hne =>
    intro vs p h v hvmem
    rw [parse_value_list_last hv hp hne] at h
    cases h
    simp only [List.mem_singleton] at hvmem
    subst hvmem
    exact parse_value_nonneg hts hv
  | case5 x value pos1 hv hp =>
    intro vs p h
    rw [parse_value_list_peek_panic hv hp] at h
    cases h
  | case6 x m hv =>
    intro vs p h
    rw [parse_value_list_elem_err hv] at h
    cases h
  | case7 x hv =>
    intro vs p h
    rw [parse_value_list_elem_panic hv] at h
    cases h

theorem parse_set_list_nonneg (ts : List Token) (pos : Nat)
    (hts : NumbersNonneg ts) :
    ∀ {us : List UpdateSet} {p : Nat}, parse_set_list ts pos = .ok us p →
      ∀ u ∈ us, ∀ m ∈ valueInts u.value, 0 ≤ m := by
  induction pos using parse_set_list.induct ts with
  | case1 x change pos1 hs changes pos2 hrec hp ih =>
    intro us p h u humem
    rw [parse_set_list_comma hs hp] at h
    simp only [hrec] at h
    cases h
    rcases List.mem_cons.mp humem with h1 | h2
    · subst h1
      exact parse_set_nonneg hts hs
    · exact ih hrec u h2
  | case2 x change pos1 hs m hrec hp ih =>
    intro us p h
    rw [parse_set_list_comma hs hp] at h
    simp only [hrec] at h
    cases h
  | case3 x change pos1 hs hrec hp ih =>
    intro us p h
    rw [parse_set_list_comma hs hp] at h
    simp only [hrec] at h
    cases h
  | case4 x change pos1 hs t hp hne =>
    intro us p h u humem
    rw [parse_set_list_last hs hp hne] at h
    cases h
    simp only [List.mem_singleton] at humem
    subst humem
    exact parse_set_nonneg hts hs
  | case5 x change pos1 hs hp =>
    intro us p h
    rw [parse_set_list_peek_panic hs hp] at h
    cases h
  | case6 x m hs =>
    intro us p h
    rw [parse_set_list_elem_err hs] at h
    cases h
  | case7 x hs =>
    intro us p h
    rw [parse_set_list_elem_panic hs] at h
    cases h

end Parser

namespace Parser

theorem handle_select_nonneg {ts : List Token} {pos : Nat} {q : SelectQuery}
    {p : Nat} (hts : NumbersNonneg ts) (h : handle_select ts pos = .ok q p) :
    ∀ m ∈ optCondInts q.where_clause, 0 ≤ m := by
  unfold handle_select at h
  cases hl : parse_column_list ts pos with
  | err m => rw [hl] at h; simp only [ParseOut.bind] at h; cases h
  | panic => rw [hl] at h; simp only [ParseOut.bind] at h; cases h
  | ok columns pos1 =>
    rw [hl] at h
    simp only [ParseOut.bind] at h
    cases hct : consume_token ts pos1 (Token.Keyword "FROM") with
    | err m => simp only [hct, ParseOut.bind] at h; cases h
    | panic => simp only [hct, ParseOut.bind] at h; cases h
    | ok u pos2 =>
      rw [hct] at h
      simp only [ParseOut.bind] at h
      cases htb : parse_table ts pos2 with
      | err m => simp only [htb, ParseOut.bind] at h; cases h
      | panic => simp only [htb, ParseOut.bind] at h; cases h
      | ok table pos3 =>
        rw [htb] at h
        simp only [ParseOut.bind] at h
        cases hck : check_keyword ts pos3 "WHERE" with
        | none => simp only [hck] at h; cases h
        | some b =>
          rw [hck] at h
          cases b with
          | false =>
            cases h
            intro m hm
            simp [optCondInts] at hm
          | true =>
            simp only [] at h
            cases ha : advance ts pos3 with
            | err m => simp only [ha, ParseOut.bind] at h; cases h
            | panic => simp only [ha, ParseOut.bind] at h; cases h
            | ok t pos4 =>
              rw [ha] at h
              simp only [ParseOut.bind] at h
              cases hcond : parse_condition ts pos4 with
              | err m => simp only [hcond, ParseOut.bind] at h; cases h
              | panic => simp only [hcond, ParseOut.bind] at h; cases h
              | ok cond pos5 =>
                rw [hcond] at h
                simp only [ParseOut.bind] at h
                cases h
                intro m hm
                simp only [optCondInts] at hm
                exact parse_condition_nonneg hts hcond m hm

theorem handle_insert_nonneg {ts : List Token} {pos : Nat} {q : InsertQuery}
    {p : Nat} (hts : NumbersNonneg ts) (h : handle_insert ts pos = .ok q p) :
    ∀ m ∈ (q.values.map valueInts).flatten, 0 ≤ m := by
  unfold handle_insert at h
  cases h1 : consume_token ts pos (Token.Keyword "INTO") with
  | err m => simp only [h1, ParseOut.bind] at h; cases h
  | panic => simp only [h1, ParseOut.bind] at h; cases h
  | ok u1 pos1 =>
    rw [h1] at h
    simp only [ParseOut.bind] at h
    cases h2 : parse_table ts pos1 with
    | err m => simp only [h2, ParseOut.bind] at h; cases h
    | panic => simp only [h2, ParseOut.bind] at h; cases h
    | ok table pos2 =>
      rw [h2] at h
      simp only [ParseOut.bind] at h
      cases h3 : consume_token ts pos2 (Token.Delimiter '(') with
      | err m => simp only [h3, ParseOut.bind] at h; cases h
      | panic => simp only [h3, ParseOut.bind] at h; cases h
      | ok u3 pos3 =>
        rw [h3] at h
        simp only [ParseOut.bind] at h
        cases h4 : parse_column_list ts pos3 with
        | err m => simp only [h4, ParseOut.bind] at h; cases h
        | panic => simp only [h4, ParseOut.bind] at h; cases h
        | ok columns pos4 =>
          rw [h4] at h
          simp only [ParseOut.bind] at h
          cases h5 : consume_token ts pos4 (Token.Delimiter ')') with
          | err m => simp only [h5, ParseOut.bind] at h; cases h
          | panic => simp only [h5, ParseOut.bind] at h; cases h
          | ok u5 pos5 =>
            rw [h5] at h
            simp only [ParseOut.bind] at h
            cases h6 : consume_token ts pos5 (Token.Keyword "VALUES") with
            | err m => simp only [h6, ParseOut.bind] at h; cases h
            | panic => simp only [h6, ParseOut.bind] at h; cases h
            | ok u6 pos6 =>
              rw [h6] at h
              simp only [ParseOut.bind] at h
              cases h7 : consume_token ts pos6 (Token.Delimiter '(') with
              | err m => simp only [h7, ParseOut.bind] at h; cases h
              | panic => simp only [h7, ParseOut.bind] at h; cases h
              | ok u7 pos7 =>
                rw [h7] at h
                simp only [ParseOut.bind] at h
                cases h8 : parse_value_list ts pos7 with
                | err m => simp only [h8, ParseOut.bind] at h; cases h
                | panic => simp only [h8, ParseOut.bind] at h; cases h
                | ok values pos8 =>
                  rw [h8] at h
                  simp only [ParseOut.bind] at h
                  cases h9 : consume_token ts pos8 (Token.Delimiter ')') with
                  | err m => simp only [h9, ParseOut.bind] at h; cases h
                  | panic => simp only [h9, ParseOut.bind] at h; cases h
                  | ok u9 pos9 =>
                    rw [h9] at h
                    simp only [ParseOut.bind] at h
                    cases h
                    intro m hm
                    simp only [List.mem_flatten] at hm
                    obtain ⟨l, hl1, hl2⟩ := hm
                    simp only [List.mem_map] at hl1
                    obtain ⟨v, hv1, hv2⟩ := hl1
                    subst hv2
                    exact parse_value_list_nonneg ts pos7 hts h8 v hv1 m hl2

theorem handle_update_nonneg {ts : List Token} {pos : Nat} {q : UpdateQuery}
    {p : Nat} (hts : NumbersNonneg ts) (h : handle_update ts pos = .ok q p) :
    (∀ m ∈ (q.changes.map (fun u => valueInts u.value)).flatten, 0 ≤ m) ∧
    (∀ m ∈ optCondInts q.where_clause, 0 ≤ m) := by
  unfold handle_update at h
  cases h1 : parse_table ts pos with
  | err m => simp only [h1, ParseOut.bind] at h; cases h
  | panic => simp only [h1, ParseOut.bind] at h; cases h
  | ok table pos1 =>
    rw [h1] at h
    simp only [ParseOut.bind] at h
    cases h2 : consume_token ts pos1 (Token.Keyword "SET") with
    | err m => simp only [h2, ParseOut.bind] at h; cases h
    | panic => simp only [h2, ParseOut.bind] at h; cases h
    | ok u2 pos2 =>
      rw [h2] at h
      simp only [ParseOut.bind] at h
      cases h3 : parse_set_list ts pos2 with
      | err m => simp only [h3, ParseOut.bind] at h; cases h
      | panic => simp only [h3, ParseOut.bind] at h; cases h
      | ok changes pos3 =>
        rw [h3] at h
        simp only [ParseOut.bind] at h
        have hch : ∀ m ∈ (changes.map (fun u => valueInts u.value)).flatten, 0 ≤ m := by
          intro m hm
          simp only [List.mem_flatten] at hm
          obtain ⟨l, hl1, hl2⟩ := hm
          simp only [List.mem_map] at hl1
          obtain ⟨u, hu1, hu2⟩ := hl1
          subst hu2
          exact parse_set_list_nonneg ts pos2 hts h3 u hu1 m hl2
        cases hck : check_keyword ts pos3 "WHERE" with
        | none => simp only [hck] at h; cases h
        | some b =>
          rw [hck] at h
          cases b with
          | false =>
            cases h
            refine ⟨hch, ?_⟩
            intro m hm
            simp [optCondInts] at hm
          | true =>
            simp only [] at h
            cases ha : advance ts pos3 with
            | err m => simp only [ha, ParseOut.bind] at h; cases h
            | panic => simp only [ha, ParseOut.bind] at h; cases h
            | ok t pos4 =>
              rw [ha] at h
              simp only [ParseOut.bind] at h
              cases hcond : parse_condition ts pos4 with
              | err m => simp only [hcond, ParseOut.bind] at h; cases h
              | panic => simp only [hcond, ParseOut.bind] at h; cases h
              | ok cond pos5 =>
                rw [hcond] at h
                simp only [ParseOut.bind] at h
                cases h
                refine ⟨hch, ?_⟩
                intro m hm
                simp only [optCondInts] at hm
                exact parse_condition_nonneg hts hcond m hm

theorem handle_delete_nonneg {ts : List Token} {pos : Nat} {q : DeleteQuery}
    {p : Nat} (hts : NumbersNonneg ts) (h : handle_delete ts pos = .ok q p) :
    ∀ m ∈ optCondInts q.where_clause, 0 ≤ m := by
  unfold handle_delete at h
  cases h1 : consume_token ts pos (Token.Keyword "FROM") with
  | err m => simp only [h1, ParseOut.bind] at h; cases h
  | panic => simp only [h1, ParseOut.bind] at h; cases h
  | ok u1 pos1 =>
    rw [h1] at h
    simp only [ParseOut.bind] at h
    cases h2 : parse_table ts pos1 with
    | err m => simp only [h2, ParseOut.bind] at h; cases h
    | panic => simp only [h2, ParseOut.bind] at h; cases h
    | ok table pos2 =>
      rw [h2] at h
      simp only [ParseOut.bind] at h
      cases hck : check_keyword ts pos2 "WHERE" with
      | none => simp only [hck] at h; cases h
      | some b =>
        rw [hck] at h
        cases b with
        | false =>
          cases h
          intro m hm
          simp [optCondInts] at hm
        | true =>
          simp only [] at h
          cases ha : advance ts pos2 with
          | err m => simp only [ha, ParseOut.bind] at h; cases h
          | panic => simp only [ha, ParseOut.bind] at h; cases h
          | ok t pos3 =>
            rw [ha] at h
            simp only [ParseOut.bind] at h
            cases hcond : parse_condition ts pos3 with
            | err m => simp only [hcond, ParseOut.bind] at h; cases h
            | panic => simp only [hcond, ParseOut.bind] at h; cases h
            | ok cond pos4 =>
              rw [hcond] at h
              simp only [ParseOut.bind] at h
              cases h
              intro m hm
              simp only [optCondInts] at hm
              exact parse_condition_nonneg hts hcond m hm

/-- Every integer literal inside a successfully parsed query comes from a
`Number` token, so the token invariant transfers to the AST. -/
theorem parse_nonneg {ts : List Token} {q : Query} {n : Nat}
    (hts : NumbersNonneg ts) (h : parse ts = .ok q n) :
    ∀ v ∈ queryInts q, 0 ≤ v := by
  cases ha : advance ts 0 with
  | err m =>
    unfold parse at h
    simp only [ha] at h
    cases h
  | panic =>
    unfold parse at h
    simp only [ha] at h
    cases h
  | ok t pos1 =>
    cases t with
    | Keyword keyword =>
      rw [parse_eq_kw ha] at h
      by_cases hS : keyword = "SELECT"
      · rw [if_pos hS] at h
        cases hq : handle_select ts pos1 with
        | err m => rw [hq] at h; simp only [ParseOut.bind] at h; cases h
        | panic => rw [hq] at h; simp only [ParseOut.bind] at h; cases h
        | ok sq p =>
          rw [hq] at h
          simp only [ParseOut.bind] at h
          cases h
          exact handle_select_nonneg hts hq
      · rw [if_neg hS] at h
        by_cases hI : keyword = "INSERT"
        · rw [if_pos hI] at h
          cases hq : handle_insert ts pos1 with
          | err m => rw [hq] at h; simp only [ParseOut.bind] at h; cases h
          | panic => rw [hq] at h; simp only [ParseOut.bind] at h; cases h
          | ok iq p =>
            rw [hq] at h
            simp only [ParseOut.bind] at h
            cases h
            exact handle_insert_nonneg hts hq
        · rw [if_neg hI] at h
          by_cases hU : keyword = "UPDATE"
          · rw [if_pos hU] at h
            cases hq : handle_update ts pos1 with
            | err m => rw [hq] at h; simp only [ParseOut.bind] at h; cases h
            | panic => rw [hq] at h; simp only [ParseOut.bind] at h; cases h
            | ok uq p =>
              rw [hq] at h
              simp only [ParseOut.bind] at h
              cases h
              obtain ⟨hc1, hc2⟩ := handle_update_nonneg hts hq
              intro v hv
              rw [queryInts] at hv
              rcases List.mem_append.mp hv with h1 | h2
              · exact hc1 v h1
              · exact hc2 v h2
          · rw [if_neg hU] at h
            by_cases hD : keyword = "DELETE"
            · rw [if_pos hD] at h
              cases hq : handle_delete ts pos1 with
              | err m => rw [hq] at h; simp only [ParseOut.bind] at h; cases h
              | panic => rw [hq] at h; simp only [ParseOut.bind] at h; cases h
              | ok dq p =>
                rw [hq] at h
                simp only [ParseOut.bind] at h
                cases h
                exact handle_delete_nonneg hts hq
            · rw [if_neg hD] at h
              cases h
    | Identifier k => unfold parse at h; simp only [ha] at h; cases h
    | Float f => unfold parse at h; simp only [ha] at h; cases h
    | Number nn => unfold parse at h; simp only [ha] at h; cases h
    | StringLiteral k => unfold parse at h; simp only [ha] at h; cases h
    | Operator o => unfold parse at h; simp only [ha] at h; cases h
    | Delimiter d => unfold parse at h; simp only [ha] at h; cases h

end Parser

theorem tokenize_minus5_eval :
    tokenize "-5".data = .ok [Token.Operator "-", Token.Number 5] := by
  have e1 : decodeAt "-5".data 0 = some '-' := by decide
  have e2 : decodeAt "-5".data 1 = some '5' := by decide
  have s1 : scanNumeric "-5".data 1 false = (2, false) := by
    rw [scanNumeric_some e2, if_pos (by decide), scanNumeric_none (by decide)]
  have hsl : sliceBytes "-5".data 1 (scanNumeric "-5".data 1 false).1 = some ['5'] := by
    rw [s1]
    decide
  have hn : handleNumeric "-5".data 1 [Token.Operator "-"] =
      .ok ([Token.Operator "-", Token.Number 5], 2) := by
    rw [handleNumeric_eq hsl, s1]
    decide
  rw [tokenize,
    tokenizeLoop_opchar (by decide) e1 (by decide) (by decide) (by decide) (by decide)]
  rw [tokenizeLoop_dig (by decide) e2 (by decide) (by decide) (by decide) (by decide)
    (by decide) (by decide) (by decide) (by decide)]
  simp only [List.nil_append] at hn ⊢
  rw [hn]
  exact tokenizeLoop_done (by decide)

/-- C9. Every `Number` token the lexer produces is non-negative — a leading
`-` always becomes a separate `Operator "-"` token, as `-5` shows — and every
integer literal inside a parsed query comes from a `Number` token, so a
negative integer can never appear as a parsed `Value` in INSERT, SET, or a
condition. -/
theorem C9_thm :
    (∀ (input : List Char) (toks : List Token), tokenize input = .ok toks →
      ∀ n : Int, Token.Number n ∈ toks → 0 ≤ n) ∧
    tokenize "-5".data = .ok [Token.Operator "-", Token.Number 5] ∧
    (∀ (toks : List Token) (q : Query) (n : Nat), Parser.NumbersNonneg toks →
      Parser.parse toks = .ok q n → ∀ v ∈ queryInts q, 0 ≤ v) :=
  ⟨fun _ _ h => tokenize_numbers_nonneg h, tokenize_minus5_eval,
   fun _ _ _ hts h => Parser.parse_nonneg hts h⟩

/-- C9, witness: the `Number 5` of `-5` is non-negative, and the parsed
`INSERT INTO t (x) VALUES (1);` carries only the non-negative literal 1. -/
theorem C9_witness :
    (0 : Int) ≤ 5 ∧ ∀ v ∈ queryInts insQuery, 0 ≤ v := by
  constructor
  · exact C9_thm.1 "-5".data [Token.Operator "-", Token.Number 5]
      C9_thm.2.1 5 (by decide)
  · refine C9_thm.2.2 insSemiTokens insQuery 10 ?_ parse_insSemi_eval
    intro m hm
    simp only [insSemiTokens, insTokens, List.mem_append, List.mem_cons,
      List.mem_singleton, List.not_mem_nil, or_false] at hm
    rcases hm with (h | h | h | h | h | h | h | h | h | h) | h <;> cases h <;>
      decide
